import Mathlib

/-!
# DynamicValues: a shallow embedding of `gtsam/nonlinear/DynamicValues.cpp`

The container `DynamicValues` maps keys (`Symbol`) to owned, type-erased manifold
values.  Its member `values_` is a pointer map: an associative container with unique
keys whose iteration order is the order of the keys.  Member functions that mutate the
receiver are embedded as functions returning an `Outcome`: the exception raised (if any)
together with the state of the receiver when the call ends, so that "the call fails and
leaves the store as it was" is a statement about the returned state.  `const` member
functions are embedded as pure functions of the receiver.

Scalars (`double`) are an arbitrary type `R`; vectors are lists of scalars.
-/

namespace gtsam

/-- Index of a variable in the linear system (`Index`). -/
abbrev Index := Nat

/-- Dense column vector of scalars (`Vector`). -/
abbrev Vector (R : Type) := List R

/-- Exceptions raised by the member functions of `DynamicValues`, and by the
collaborators they call. `pastTheEnd` marks a dereference of an end iterator, which is
undefined behaviour in the source. -/
inductive Error (Key : Type) where
  | DynamicValuesKeyAlreadyExists (key : Key)
  | DynamicValuesKeyDoesNotExist (operation : String) (key : Key)
  | DynamicValuesIncorrectType (key : Key) (storedTypeId requestedTypeId : Nat)
  | DynamicValuesMismatched
  | bad_cast
  | orderingKeyMissing (key : Key)
  | pastTheEnd
  deriving DecidableEq

/-- Result of a call of a mutating member function: what the call returned or threw,
and the state of the mutated object when the call ended. -/
structure Outcome (ε σ : Type) where
  result : Except ε Unit
  state : σ

/-- Modelled from the spec: the Manifold Capability contract of class `Value`, whose
header is not among the sources: `dimension()`, `retract(tangentDelta)`,
`localCoordinates(other)`, `equals(other, tolerance)`, `clone()`, together with the
most-derived runtime type identity (`typeid`) the container compares.
`localCoordinates` is the operation of the concrete type on two values of that type. -/
structure ValueOps (Value R : Type) where
  typeid : Value → Nat
  clone_ : Value → Value
  dim : Value → Nat
  retract_ : Value → Vector R → Value
  localCoordinates : Value → Value → Vector R
  equals_ : Value → Value → R → Bool

/-- Modelled from the spec: the type-erased `Value::localCoordinates_`, missing from the
sources.  It casts its argument to the receiver's concrete type before calling the
concrete operation; the call site in `DynamicValues::localCoordinates` records that it
"Will throw a dynamic_cast exception if types do not match". -/
def ValueOps.localCoordinates_ {Key Value R : Type} (ops : ValueOps Value R)
    (value1 value2 : Value) : Except (Error Key) (Vector R) :=
  if ops.typeid value1 = ops.typeid value2 then
    .ok (ops.localCoordinates value1 value2)
  else
    .error .bad_cast

/-! ## The pointer map `KeyValueMap` held in `values_`

The header that declares `KeyValueMap` is not among the sources.  The member functions
called on `values_` (`insert(key, ptr)` returning an iterator and a flag, `find`,
`replace(iterator, ptr)`, `erase(iterator)`) are those of a pointer map: an associative
container with unique keys, iterated in ascending order of the keys (the spec takes keys
to be totally ordered).  It is modelled as the list of its entries in iteration order. -/

namespace ptr_map

/-- The member `find(j)`: the entry with key `j`, or `end()` (`none`). -/
def find {Key Value : Type} [DecidableEq Key] :
    List (Key × Value) → Key → Option Value
  | [], _ => none
  | (k, v) :: rest, j => if k = j then some v else find rest j

/-- Position a new entry in front of the first entry with a greater key. -/
def place {Key Value : Type} [LinearOrder Key] (k : Key) (v : Value) :
    List (Key × Value) → List (Key × Value)
  | [] => [(k, v)]
  | (k', v') :: rest =>
    if k < k' then (k, v) :: (k', v') :: rest else (k', v') :: place k v rest

/-- The member `insert(key, ptr)`: when the key is present the map is left as it is (the new object
is released) and the flag is `false`; otherwise the entry is added at its ordered
position and the flag is `true`. -/
def insert {Key Value : Type} [LinearOrder Key] (m : List (Key × Value)) (k : Key)
    (v : Value) : List (Key × Value) × Bool :=
  match find m k with
  | some _ => (m, false)
  | none => (place k v m, true)

/-- The member `replace(item, ptr)` for the iterator `item` returned by `find(j)`: the object owned
by that entry is replaced. -/
def replace {Key Value : Type} [DecidableEq Key] :
    List (Key × Value) → Key → Value → List (Key × Value)
  | [], _, _ => []
  | (k, v) :: rest, j, x => if k = j then (k, x) :: rest else (k, v) :: replace rest j x

/-- The member `erase(item)` for the iterator `item` returned by `find(j)`: that entry is removed. -/
def erase {Key Value : Type} [DecidableEq Key] :
    List (Key × Value) → Key → List (Key × Value)
  | [], _ => []
  | (k, v) :: rest, j => if k = j then rest else (k, v) :: erase rest j

end ptr_map

/-- Modelled from the spec: the `Ordering`, whose class is missing from the sources: a map
from keys to linear-system indices. -/
structure Ordering (Key : Type) where
  order_ : List (Key × Index)

/-- The member `tryAt(key, index)`: the index of `key`, if the ordering has one. -/
def Ordering.tryAt {Key : Type} [DecidableEq Key] (ordering : Ordering Key) (key : Key) :
    Option Index :=
  ptr_map.find ordering.order_ key

/-- Modelled from the spec: `ordering[key]`; "Fails if `ordering` is missing a key present
in the store". -/
def Ordering.subscript {Key : Type} [DecidableEq Key] (ordering : Ordering Key)
    (key : Key) : Except (Error Key) Index :=
  match ordering.tryAt key with
  | some index => .ok index
  | none => .error (.orderingKeyMissing key)

/-- The member `nVars()`: one more than the largest index in use. -/
def Ordering.nVars {Key : Type} (ordering : Ordering Key) : Nat :=
  ordering.order_.foldl (fun n entry => max n (entry.2 + 1)) 0

/-- Modelled from the spec: the Tangent Delta `VectorValues`, whose class is missing from
the sources: "logically partitioned by Ordering into one contiguous sub-vector per key";
`delta[j]` is the sub-vector at index `j`. -/
def VectorValues (R : Type) := Index → Vector R

/-- The subscript `delta[j]`. -/
def VectorValues.subscript {R : Type} (delta : VectorValues R) (j : Index) : Vector R :=
  delta j

/-- Modelled from the spec: `result.insert(j, vector)` "writes it into the
ordering-determined slice". -/
def VectorValues.insert {R : Type} (result : VectorValues R) (j : Index)
    (value : Vector R) : VectorValues R :=
  fun i => if i = j then value else result i

/-- The constructor `VectorValues(dimensions)`: one sub-vector per index, of the given dimension. The
source leaves the entries uninitialised; the model fills them with zeros. -/
def VectorValues.ofDims {R : Type} [Zero R] (dimensions : List Nat) : VectorValues R :=
  fun j => List.replicate (dimensions.getD j 0) 0

/-! ## DynamicValues -/

/-- The container: its only data member is the pointer map `values_`. -/
structure DynamicValues (Key Value : Type) where
  values_ : List (Key × Value)
  deriving DecidableEq

namespace DynamicValues

variable {Key Value R : Type}

/-- Class invariant of the pointer map: entries are held in strictly ascending key
order (hence keys are unique). -/
def Ordered [LinearOrder Key] (S : DynamicValues Key Value) : Prop :=
  (S.values_.map Prod.fst).Pairwise (fun a b => a < b)

instance [LinearOrder Key] (S : DynamicValues Key Value) : Decidable S.Ordered := by
  unfold Ordered
  infer_instance

/-- The default-constructed, empty container. -/
def empty : DynamicValues Key Value := ⟨[]⟩

/-- The member `size()`. -/
def size (S : DynamicValues Key Value) : Nat := S.values_.length

/-- The member `exists(j)`: `values_.find(j) != values_.end()`. -/
def exists_ [DecidableEq Key] (S : DynamicValues Key Value) (j : Key) : Bool :=
  (ptr_map.find S.values_ j).isSome

/-- The member `keys()`: the keys in iteration order. -/
def keys (S : DynamicValues Key Value) : List Key :=
  S.values_.map Prod.fst

/-- The member `insert(j, val)`. -/
def insert [LinearOrder Key] (ops : ValueOps Value R) (S : DynamicValues Key Value)
    (j : Key) (val : Value) : Outcome (Error Key) (DynamicValues Key Value) :=
  let insertResult := ptr_map.insert S.values_ j (ops.clone_ val)
  if !insertResult.2 then
    ⟨.error (.DynamicValuesKeyAlreadyExists j), ⟨insertResult.1⟩⟩
  else
    ⟨.ok (), ⟨insertResult.1⟩⟩

/-- The member `update(j, val)`. -/
def update [DecidableEq Key] (ops : ValueOps Value R) (S : DynamicValues Key Value)
    (j : Key) (val : Value) : Outcome (Error Key) (DynamicValues Key Value) :=
  match ptr_map.find S.values_ j with
  | none => ⟨.error (.DynamicValuesKeyDoesNotExist "update" j), S⟩
  | some item =>
    if ops.typeid item ≠ ops.typeid val then
      ⟨.error (.DynamicValuesIncorrectType j (ops.typeid item) (ops.typeid val)), S⟩
    else
      ⟨.ok (), ⟨ptr_map.replace S.values_ j (ops.clone_ val)⟩⟩

/-- The member `erase(j)`. -/
def erase [DecidableEq Key] (S : DynamicValues Key Value) (j : Key) :
    Outcome (Error Key) (DynamicValues Key Value) :=
  match ptr_map.find S.values_ j with
  | none => ⟨.error (.DynamicValuesKeyDoesNotExist "erase" j), S⟩
  | some _ => ⟨.ok (), ⟨ptr_map.erase S.values_ j⟩⟩

/-- The loop of `retract`: `result` is the container under construction, the list holds
the entries of the receiver still to visit. -/
def retractLoop [LinearOrder Key] (ops : ValueOps Value R) (delta : VectorValues R)
    (ordering : Ordering Key) :
    List (Key × Value) → DynamicValues Key Value →
      Except (Error Key) (DynamicValues Key Value)
  | [], result => .ok result
  | (key, value) :: rest, result =>
    match ordering.subscript key with
    | .error e => .error e
    | .ok index =>
      let singleDelta := delta.subscript index
      let retractedValue := ops.retract_ value singleDelta
      retractLoop ops delta ordering rest
        ⟨(ptr_map.insert result.values_ key retractedValue).1⟩

/-- The member `retract(delta, ordering)`: a `const` member function returning a new container. -/
def retract [LinearOrder Key] (ops : ValueOps Value R) (S : DynamicValues Key Value)
    (delta : VectorValues R) (ordering : Ordering Key) :
    Except (Error Key) (DynamicValues Key Value) :=
  retractLoop ops delta ordering S.values_ empty

/-- The paired walk of `localCoordinates(cp, ordering, result)`: `it1` runs over the
entries of the receiver, `it2` over those of `cp`, and the loop ends when `it1` reaches
the end.  Of the two arguments of `result.insert`, the index is evaluated first here
(the source leaves the order to the compiler). -/
def localCoordinatesLoop [DecidableEq Key] (ops : ValueOps Value R)
    (ordering : Ordering Key) :
    List (Key × Value) → List (Key × Value) → VectorValues R →
      Outcome (Error Key) (VectorValues R)
  | [], _, result => ⟨.ok (), result⟩
  | _ :: _, [], result => ⟨.error .pastTheEnd, result⟩
  | (key1, value1) :: rest1, (key2, value2) :: rest2, result =>
    if key1 ≠ key2 then
      ⟨.error .DynamicValuesMismatched, result⟩
    else
      match ordering.subscript key1 with
      | .error e => ⟨.error e, result⟩
      | .ok index =>
        match ops.localCoordinates_ value1 value2 with
        | .error e => ⟨.error e, result⟩
        | .ok v => localCoordinatesLoop ops ordering rest1 rest2 (result.insert index v)

/-- The member `localCoordinates(cp, ordering, result)`: writes into the caller's `result`. -/
def localCoordinatesInto [DecidableEq Key] (ops : ValueOps Value R)
    (S cp : DynamicValues Key Value) (ordering : Ordering Key) (result : VectorValues R) :
    Outcome (Error Key) (VectorValues R) :=
  if S.size ≠ cp.size then
    ⟨.error .DynamicValuesMismatched, result⟩
  else
    localCoordinatesLoop ops ordering S.values_ cp.values_ result

/-- Modelled from the spec: `dims(ordering)`, "per-key dimension sequence"; the collector
it applies is missing from the sources.  The entry at each key's index is the dimension
of the value stored under that key. -/
def dims [DecidableEq Key] (ops : ValueOps Value R) (S : DynamicValues Key Value)
    (ordering : Ordering Key) : List Nat :=
  S.values_.foldl
    (fun dimensions entry =>
      match ordering.tryAt entry.1 with
      | some var => dimensions.set var (ops.dim entry.2)
      | none => dimensions)
    (List.replicate ordering.nVars 0)

/-- The member `localCoordinates(cp, ordering)`: allocates the result and fills it. -/
def localCoordinates [DecidableEq Key] [Zero R] (ops : ValueOps Value R)
    (S cp : DynamicValues Key Value) (ordering : Ordering Key) :
    Except (Error Key) (VectorValues R) :=
  let result : VectorValues R := VectorValues.ofDims (S.dims ops ordering)
  let filled := localCoordinatesInto ops S cp ordering result
  match filled.result with
  | .error e => .error e
  | .ok _ => .ok filled.state

end DynamicValues

/-! ## A concrete instance for evaluation

Two concrete types of value: a scalar (type identity 1, dimension 1) and a planar point
(type identity 2, dimension 2), over integer scalars. -/

/-- Carrier of the example instance: the runtime type identity and the coordinates. -/
structure ExValue where
  tid : Nat
  coords : List Int
  deriving DecidableEq

/-- Component-wise sum of two coordinate lists. -/
def ExValue.add (a b : List Int) : List Int := List.zipWith (fun x y => x + y) a b

/-- Component-wise difference of two coordinate lists. -/
def ExValue.sub (a b : List Int) : List Int := List.zipWith (fun x y => x - y) a b

/-- The capability operations of the example instance: vector-space retraction. -/
def exOps : ValueOps ExValue Int where
  typeid v := v.tid
  clone_ v := v
  dim v := v.coords.length
  retract_ v d := ⟨v.tid, ExValue.add v.coords d⟩
  localCoordinates a b := ExValue.sub b.coords a.coords
  equals_ a b tol :=
    decide (a.coords.length = b.coords.length) &&
      (List.zipWith (fun x y => decide ((x - y).natAbs ≤ tol.natAbs)) a.coords b.coords).all id


/-- Example value of the scalar type. -/
def exScalar (x : Int) : ExValue := ⟨1, [x]⟩

/-- Example value of the planar point type. -/
def exPoint (x y : Int) : ExValue := ⟨2, [x, y]⟩

/-- Example store: a scalar under key 1 and a point under key 3. -/
def exStore : DynamicValues Nat ExValue := ⟨[(1, exScalar 5), (3, exPoint 1 2)]⟩

/-- Example ordering for `exStore`: key 1 at index 0, key 3 at index 1. -/
def exOrdering : Ordering Nat := ⟨[(1, 0), (3, 1)]⟩

/-- Example delta: a step of 10 on the scalar and of (20, 30) on the point. -/
def exDelta : VectorValues Int := fun j => if j = 0 then [10] else [20, 30]

/-- Example: same size as `exStoreB`, but the second keys differ (2 against 3) and the
values under the first key have different types. -/
def exStoreA : DynamicValues Nat ExValue := ⟨[(1, exScalar 5), (2, exScalar 1)]⟩

/-- Example: see `exStoreA`. -/
def exStoreB : DynamicValues Nat ExValue := ⟨[(1, exPoint 1 2), (3, exScalar 0)]⟩

/-- Example ordering with an index for each of the keys 1, 2 and 3. -/
def exOrdering3 : Ordering Nat := ⟨[(1, 0), (2, 1), (3, 2)]⟩

/-- Example: a scalar under key 1. -/
def exScalarStore : DynamicValues Nat ExValue := ⟨[(1, exScalar 5)]⟩

/-- Example: a point under key 1. -/
def exPointStore : DynamicValues Nat ExValue := ⟨[(1, exPoint 1 2)]⟩

/-- Example ordering with key 1 at index 0. -/
def exOrdering1 : Ordering Nat := ⟨[(1, 0)]⟩

/-- Example: scalars 5 and 7 under keys 1 and 2. -/
def exPairA : DynamicValues Nat ExValue := ⟨[(1, exScalar 5), (2, exScalar 7)]⟩

/-- Example: scalars 1 and 1 under keys 1 and 2. -/
def exPairB : DynamicValues Nat ExValue := ⟨[(1, exScalar 1), (2, exScalar 1)]⟩

/-- Example ordering that gives keys 1 and 2 the same index 0. -/
def exOrderingShared : Ordering Nat := ⟨[(1, 0), (2, 0)]⟩

/-- Example ordering that gives keys 1 and 2 the indices 0 and 1. -/
def exOrdering2 : Ordering Nat := ⟨[(1, 0), (2, 1)]⟩

/-! ## Bulk operations, equality and copying -/

/-- The factory `VectorValues::Zero(dimensions)`: one zero sub-vector per index, of the
given dimension. -/
def VectorValues.Zero {R : Type} [Zero R] (dimensions : List Nat) : VectorValues R :=
  fun j => List.replicate (dimensions.getD j 0) 0

namespace DynamicValues

variable {Key Value R : Type}

/-- The paired walk of `equals`: `it1` runs over the entries of the receiver, `it2` over
those of `other`, and the loop ends when `it1` reaches the end. -/
def equalsLoop [DecidableEq Key] (ops : ValueOps Value R) (tol : R) :
    List (Key × Value) → List (Key × Value) → Except (Error Key) Bool
  | [], _ => .ok true
  | _ :: _, [] => .error .pastTheEnd
  | (key1, value1) :: rest1, (key2, value2) :: rest2 =>
    if ops.typeid value1 ≠ ops.typeid value2 then
      .ok false
    else if key1 ≠ key2 then
      .ok false
    else if !ops.equals_ value1 value2 tol then
      .ok false
    else
      equalsLoop ops tol rest1 rest2

/-- The member `equals(other, tol)`. -/
def equals [DecidableEq Key] (ops : ValueOps Value R) (S other : DynamicValues Key Value)
    (tol : R) : Except (Error Key) Bool :=
  if S.size ≠ other.size then
    .ok false
  else
    equalsLoop ops tol S.values_ other.values_

/-- The loop of `insert(values)`: `insert(key, value)` is called for the entries in turn;
an exception leaves the loop with the receiver as it is at that point. -/
def insertLoop [LinearOrder Key] (ops : ValueOps Value R) :
    List (Key × Value) → DynamicValues Key Value →
      Outcome (Error Key) (DynamicValues Key Value)
  | [], S => ⟨.ok (), S⟩
  | (key, value) :: rest, S =>
    match (S.insert ops key value).result with
    | .error e => ⟨.error e, (S.insert ops key value).state⟩
    | .ok _ => insertLoop ops rest (S.insert ops key value).state

/-- The member `insert(values)`: inserts every entry of another container. -/
def insertValues [LinearOrder Key] (ops : ValueOps Value R)
    (S values : DynamicValues Key Value) : Outcome (Error Key) (DynamicValues Key Value) :=
  insertLoop ops values.values_ S

/-- The loop of `update(values)`: `update(key, value)` is called for the entries in turn;
an exception leaves the loop with the receiver as it is at that point. -/
def updateLoop [DecidableEq Key] (ops : ValueOps Value R) :
    List (Key × Value) → DynamicValues Key Value →
      Outcome (Error Key) (DynamicValues Key Value)
  | [], S => ⟨.ok (), S⟩
  | (key, value) :: rest, S =>
    match (S.update ops key value).result with
    | .error e => ⟨.error e, (S.update ops key value).state⟩
    | .ok _ => updateLoop ops rest (S.update ops key value).state

/-- The member `update(values)`: updates with every entry of another container. -/
def updateValues [DecidableEq Key] (ops : ValueOps Value R)
    (S values : DynamicValues Key Value) : Outcome (Error Key) (DynamicValues Key Value) :=
  updateLoop ops values.values_ S

/-- The copy constructor: `this->insert(other)` on a container that starts empty. -/
def copyConstruct [LinearOrder Key] (ops : ValueOps Value R)
    (other : DynamicValues Key Value) : Outcome (Error Key) (DynamicValues Key Value) :=
  insertValues ops empty other

end DynamicValues

/-! ## The Levenberg-Marquardt optimizer (`LevenbergMarquardtOptimizer.h`)

Scalars of type `double` are rational numbers here. -/

/-- The enumeration `LevenbergMarquardtParams::LMVerbosity`. -/
inductive LMVerbosity where
  | SILENT
  | LAMBDA
  | TRYLAMBDA
  | TRYCONFIG
  | TRYDELTA
  | DAMPED
  deriving DecidableEq

/-- The class `LevenbergMarquardtParams`.  Its base class is missing from the sources: the
member `ordering` it contributes is an optional `Ordering`, and `base` stands for all the
other inherited members. -/
structure LevenbergMarquardtParams (Key Base : Type) where
  base : Base
  ordering : Option (Ordering Key)
  lambdaInitial : ℚ
  lambdaFactor : ℚ
  lambdaUpperBound : ℚ
  lmVerbosity : LMVerbosity

/-- The default constructor `LevenbergMarquardtParams()`; `base` is the default-constructed
base part, which holds no ordering. -/
def LevenbergMarquardtParams.construct {Key Base : Type} (base : Base) :
    LevenbergMarquardtParams Key Base :=
  { base := base
    ordering := none
    lambdaInitial := 1 / 100000
    lambdaFactor := 10
    lambdaUpperBound := 100000
    lmVerbosity := .SILENT }

/-- Modelled from the spec: the collaborators behind `NonlinearFactorGraph`, missing from
the sources: the total error of an estimate, and the "external ordering-construction
collaborator" `orderingCOLAMD`. -/
structure NonlinearFactorGraph (Key Value : Type) where
  error : DynamicValues Key Value → ℚ
  orderingCOLAMD : DynamicValues Key Value → Ordering Key

/-- The class `LevenbergMarquardtState`: the damping value `lambda`, and the members of
the base class `NonlinearOptimizerState`, which the spec names: "current Variable Store
estimate, current total error, iteration counter". -/
structure LevenbergMarquardtState (Key Value : Type) where
  values : DynamicValues Key Value
  error : ℚ
  iterations : Nat
  lambda : ℚ

/-- The constructor `LevenbergMarquardtState(graph, initialValues, params, iterations)`:
the base part is built from `(graph, initialValues, iterations)` and `lambda` is
`params.lambdaInitial`. -/
def LevenbergMarquardtState.construct {Key Value Base : Type}
    (graph : NonlinearFactorGraph Key Value) (initialValues : DynamicValues Key Value)
    (params : LevenbergMarquardtParams Key Base) (iterations : Nat) :
    LevenbergMarquardtState Key Value :=
  { values := initialValues
    error := graph.error initialValues
    iterations := iterations
    lambda := params.lambdaInitial }

/-- What `ensureHasOrdering` returns, together with the number of calls it made to
`graph.orderingCOLAMD`. -/
structure EnsuredParams (Key Base : Type) where
  params : LevenbergMarquardtParams Key Base
  orderingCalls : Nat

/-- The member `ensureHasOrdering(params, graph, values)`. -/
def ensureHasOrdering {Key Value Base : Type} (params : LevenbergMarquardtParams Key Base)
    (graph : NonlinearFactorGraph Key Value) (values : DynamicValues Key Value) :
    EnsuredParams Key Base :=
  match params.ordering with
  | none => ⟨{ params with ordering := some (graph.orderingCOLAMD values) }, 1⟩
  | some _ => ⟨params, 0⟩

/-- The class `LevenbergMarquardtOptimizer`: the graph held by the base class and the
members `params_`, `state_` and `dimensions_`. -/
structure LevenbergMarquardtOptimizer (Key Value R Base : Type) where
  graph_ : NonlinearFactorGraph Key Value
  params_ : LevenbergMarquardtParams Key Base
  state_ : LevenbergMarquardtState Key Value
  dimensions_ : List Nat

namespace LevenbergMarquardtOptimizer

variable {Key Value R Base : Type}

/-- The standard constructor `LevenbergMarquardtOptimizer(graph, initialValues, params)`.
The ordering dereferenced for `dimensions_` is the one `ensureHasOrdering` left in
`params_`. -/
def construct [DecidableEq Key] (ops : ValueOps Value R)
    (graph : NonlinearFactorGraph Key Value) (initialValues : DynamicValues Key Value)
    (params : LevenbergMarquardtParams Key Base) :
    LevenbergMarquardtOptimizer Key Value R Base :=
  let params_ := (ensureHasOrdering params graph initialValues).params
  { graph_ := graph
    params_ := params_
    state_ := LevenbergMarquardtState.construct graph initialValues params_ 0
    dimensions_ :=
      match params_.ordering with
      | some ordering => initialValues.dims ops ordering
      | none => [] }

/-- The constructor `LevenbergMarquardtOptimizer(graph, initialValues, ordering)`:
`params_` is default-constructed, then given the ordering. -/
def constructWithOrdering [DecidableEq Key] (ops : ValueOps Value R) (base : Base)
    (graph : NonlinearFactorGraph Key Value) (initialValues : DynamicValues Key Value)
    (ordering : Ordering Key) : LevenbergMarquardtOptimizer Key Value R Base :=
  let params_ : LevenbergMarquardtParams Key Base :=
    { (LevenbergMarquardtParams.construct base : LevenbergMarquardtParams Key Base) with
      ordering := some ordering }
  { graph_ := graph
    params_ := params_
    state_ := LevenbergMarquardtState.construct graph initialValues params_ 0
    dimensions_ := initialValues.dims ops ordering }

/-- The accessor `lambda()`. -/
def lambda (optimizer : LevenbergMarquardtOptimizer Key Value R Base) : ℚ :=
  optimizer.state_.lambda

end LevenbergMarquardtOptimizer

/-! ## More values for evaluation -/

/-- Example: a point under key 3 only. -/
def exPointStore3 : DynamicValues Nat ExValue := ⟨[(3, exPoint 1 2)]⟩

/-- Example: scalars under keys 1 and 3; key 3 is shared with `exPointStore3`. -/
def exNewAndShared : DynamicValues Nat ExValue := ⟨[(1, exScalar 9), (3, exScalar 8)]⟩

/-- Example: a scalar under key 1, which `exStore` holds with the same type, and a scalar
under key 2, which `exStore` does not hold. -/
def exGoodThenAbsent : DynamicValues Nat ExValue := ⟨[(1, exScalar 9), (2, exScalar 8)]⟩

/-- Example ordering with an index for key 1 only. -/
def exOrderingPart : Ordering Nat := ⟨[(1, 0)]⟩

/-- Example graph: the error is the number of stored values, and the ordering builder
numbers keys 1 and 3. -/
def exGraph : NonlinearFactorGraph Nat ExValue :=
  { error := fun values => values.size
    orderingCOLAMD := fun _ => exOrdering }

/-! ## Arbitrary ordering and assignment -/

/-- Modelled from the spec: the member `Ordering::insert(key, index)` of the ordering, "an
injective mapping from Key to a contiguous tangent-space index": the pair is added to the
map; a key the map already holds keeps its index. -/
def Ordering.insert {Key : Type} [DecidableEq Key] (ordering : Ordering Key) (key : Key)
    (index : Index) : Ordering Key :=
  match ordering.tryAt key with
  | some _ => ordering
  | none => ⟨ordering.order_ ++ [(key, index)]⟩

/-- The object on the right of an assignment: the receiver itself, or another object. -/
inductive AssignedFrom (Key Value : Type) where
  | self
  | other (values : DynamicValues Key Value)

namespace DynamicValues

variable {Key Value R : Type}

/-- The loop of `orderingArbitrary`: each key in turn is given the index `firstVar`,
which is then incremented.  `Index` is a fixed-width unsigned integer (`size_t`, 64
bits): the increment of its largest value wraps around to 0. -/
def orderingArbitraryLoop [DecidableEq Key] :
    List (Key × Value) → Ordering Key → Index → Ordering Key
  | [], ordering, _ => ordering
  | (key, _) :: rest, ordering, firstVar =>
    orderingArbitraryLoop rest (ordering.insert key firstVar) ((firstVar + 1) % 2 ^ 64)

/-- The member `orderingArbitrary(firstVar)`. -/
def orderingArbitrary [DecidableEq Key] (S : DynamicValues Key Value) (firstVar : Index) :
    Ordering Key :=
  orderingArbitraryLoop S.values_ ⟨[]⟩ firstVar

/-- The member `clear()`, declared in the header that is not among the sources: empties
`values_`. -/
def clear (_S : DynamicValues Key Value) : DynamicValues Key Value := ⟨[]⟩

/-- The assignment operator `operator=(rhs)`: `this->clear()`, then `this->insert(rhs)`.
The argument is a reference: when it refers to the receiver itself, what `insert` reads
is the receiver after `clear()`. -/
def operatorAssign [LinearOrder Key] (ops : ValueOps Value R) (S : DynamicValues Key Value)
    (rhs : AssignedFrom Key Value) : Outcome (Error Key) (DynamicValues Key Value) :=
  let cleared := S.clear
  match rhs with
  | .self => insertValues ops cleared cleared
  | .other values => insertValues ops cleared values

end DynamicValues

/-! ## The optimizer state machine -/

/-- Modelled from the spec: the states of the optimizer state machine,
"Initialized → Iterating → {Converged, Failed, MaxIterationsReached}". -/
inductive OptimizerStatus where
  | Initialized
  | Iterating
  | Converged
  | Failed
  | MaxIterationsReached
  deriving DecidableEq

/-- Modelled from the spec: the stopping options of the configuration surface,
`maxIterations`, `absoluteErrorTolerance` and `relativeErrorTolerance`. -/
structure StoppingCriteria where
  maxIterations : Nat
  absoluteErrorTol : ℚ
  relativeErrorTol : ℚ

/-- Modelled from the spec: the optimizer together with the state of its state machine. -/
structure OptimizerMachine (Key Value R Base : Type) where
  optimizer : LevenbergMarquardtOptimizer Key Value R Base
  status : OptimizerStatus

/-- Modelled from the spec: the outcome of the inner damping loop: a candidate accepted
with its error and the damping to keep, or failure with the damping that exceeded its
upper bound. -/
inductive Trial (Key Value : Type) where
  | accepted (candidate : DynamicValues Key Value) (error : ℚ) (lambda : ℚ)
  | failed (lambda : ℚ)

namespace LevenbergMarquardtOptimizer

variable {Key Value R Base : Type}

/-- Modelled from the spec: the inner damping loop of `iterate()`, whose body is not among
the sources (spec 4.2, step 2).  `solve` is the linearization and damped solve at the
current estimate, `none` being the solver's numerical failure, which is a rejected trial.
A candidate is accepted when its error is strictly below the current error, and the
damping is then divided by the factor; a rejected trial multiplies the damping by the
factor and retries unless the damping exceeds its upper bound.  The loop need not end:
`fuel` bounds the number of trials, and `none` is returned when it runs out. -/
def dampingLoop [LinearOrder Key] (ops : ValueOps Value R)
    (graph : NonlinearFactorGraph Key Value)
    (solve : DynamicValues Key Value → ℚ → Option (VectorValues R))
    (ordering : Ordering Key) (factor upperBound : ℚ) (values : DynamicValues Key Value)
    (currentError : ℚ) : Nat → ℚ → Option (Except (Error Key) (Trial Key Value))
  | 0, _ => none
  | fuel + 1, lambda =>
    match solve values lambda with
    | none =>
      if upperBound < lambda * factor then
        some (.ok (.failed (lambda * factor)))
      else
        dampingLoop ops graph solve ordering factor upperBound values currentError fuel
          (lambda * factor)
    | some delta =>
      match values.retract ops delta ordering with
      | .error e => some (.error e)
      | .ok candidate =>
        if graph.error candidate < currentError then
          some (.ok (.accepted candidate (graph.error candidate) (lambda / factor)))
        else if upperBound < lambda * factor then
          some (.ok (.failed (lambda * factor)))
        else
          dampingLoop ops graph solve ordering factor upperBound values currentError fuel
            (lambda * factor)

/-- Modelled from the spec: the stopping criteria checked after an accepted step (spec
4.2): absolute error below its tolerance, relative error decrease below its tolerance,
iteration counter at its maximum; otherwise the machine keeps iterating. -/
def stoppingStatus (criteria : StoppingCriteria) (currentError candidateError : ℚ)
    (iterations : Nat) : OptimizerStatus :=
  if candidateError < criteria.absoluteErrorTol then
    .Converged
  else if (currentError - candidateError) / currentError < criteria.relativeErrorTol then
    .Converged
  else if criteria.maxIterations ≤ iterations then
    .MaxIterationsReached
  else
    .Iterating

/-- Modelled from the spec: the member `iterate()`, of which the sources hold the
declaration only (spec 4.2).  A terminal state is left as it is.  Otherwise the damping
loop runs from the current damping: an accepted candidate is committed with its error,
the iteration counter is incremented and the stopping criteria decide the next state; a
damping beyond its upper bound leads to `Failed` with the estimate and error unchanged.
A container error aborts the call; `none` is returned when the damping loop runs out of
fuel. -/
def iterate [LinearOrder Key] (ops : ValueOps Value R)
    (solve : DynamicValues Key Value → ℚ → Option (VectorValues R))
    (criteria : StoppingCriteria) (fuel : Nat) (machine : OptimizerMachine Key Value R Base) :
    Option (Except (Error Key) (OptimizerMachine Key Value R Base)) :=
  match machine.status with
  | .Converged => some (.ok machine)
  | .Failed => some (.ok machine)
  | .MaxIterationsReached => some (.ok machine)
  | _ =>
    let optimizer := machine.optimizer
    let state := optimizer.state_
    match dampingLoop ops optimizer.graph_ solve (optimizer.params_.ordering.getD ⟨[]⟩)
        optimizer.params_.lambdaFactor optimizer.params_.lambdaUpperBound state.values
        state.error fuel state.lambda with
    | none => none
    | some (.error e) => some (.error e)
    | some (.ok (.failed lambda)) =>
      some (.ok
        { optimizer := { optimizer with state_ := { state with lambda := lambda } }
          status := .Failed })
    | some (.ok (.accepted candidate error lambda)) =>
      some (.ok
        { optimizer :=
            { optimizer with
              state_ :=
                { values := candidate
                  error := error
                  iterations := state.iterations + 1
                  lambda := lambda } }
          status := stoppingStatus criteria state.error error (state.iterations + 1) })

/-- A run of `n` calls of `iterate()` by the driving loop; the run ends at the first call
that aborts or does not return. -/
def run [LinearOrder Key] (ops : ValueOps Value R)
    (solve : DynamicValues Key Value → ℚ → Option (VectorValues R))
    (criteria : StoppingCriteria) (fuel : Nat) :
    Nat → OptimizerMachine Key Value R Base →
      Option (Except (Error Key) (OptimizerMachine Key Value R Base))
  | 0, machine => some (.ok machine)
  | n + 1, machine =>
    match run ops solve criteria fuel n machine with
    | some (.ok reached) => iterate ops solve criteria fuel reached
    | other => other

end LevenbergMarquardtOptimizer

/-! ## Values for evaluating the optimizer -/

/-- Example graph: the error of an estimate is the square of the scalar under key 1. -/
def exSquareGraph : NonlinearFactorGraph Nat ExValue :=
  { error := fun values =>
      match ptr_map.find values.values_ 1 with
      | some v => ((v.coords.headD 0 * v.coords.headD 0 : Int) : ℚ)
      | none => 0
    orderingCOLAMD := fun _ => exOrdering1 }

/-- Example solver: a step of -1 on the variable at index 0, whatever the damping. -/
def exSolve : DynamicValues Nat ExValue → ℚ → Option (VectorValues Int) :=
  fun _ _ => some (fun _ => [-1])

/-- Example stopping criteria. -/
def exCriteria : StoppingCriteria :=
  { maxIterations := 10, absoluteErrorTol := 1 / 1000000, relativeErrorTol := 1 / 1000000 }

/-- Example machine: the optimizer constructed from `exSquareGraph`, the scalar 5 under
key 1 and default parameters, about to iterate. -/
def exMachine : OptimizerMachine Nat ExValue Int Unit :=
  { optimizer :=
      LevenbergMarquardtOptimizer.construct exOps exSquareGraph exScalarStore
        (LevenbergMarquardtParams.construct ())
    status := .Initialized }

/-- Example: the machine reached from `exMachine` by one call of `iterate()`. -/
def exMachineNext : OptimizerMachine Nat ExValue Int Unit :=
  match LevenbergMarquardtOptimizer.iterate exOps exSolve exCriteria 3 exMachine with
  | some (.ok next) => next
  | _ => exMachine

/-! ## Facts about the pointer map -/

namespace ptr_map

variable {Key Value : Type}

theorem find_eq_none_iff [DecidableEq Key] (m : List (Key × Value)) (j : Key) :
    find m j = none ↔ j ∉ m.map Prod.fst := by
  induction m with
  | nil => simp [find]
  | cons e rest ih =>
    obtain ⟨k, v⟩ := e
    by_cases h : k = j
    · simp [find, h]
    · have h' : ¬ j = k := fun c => h c.symm
      simp only [find, h, if_false, ih, List.map_cons, List.mem_cons, h', false_or]

theorem find_isSome_iff [DecidableEq Key] (m : List (Key × Value)) (j : Key) :
    (find m j).isSome = true ↔ j ∈ m.map Prod.fst := by
  rw [← not_iff_not, ← find_eq_none_iff]
  cases find m j <;> simp

theorem length_place [LinearOrder Key] (k : Key) (v : Value) (m : List (Key × Value)) :
    (place k v m).length = m.length + 1 := by
  induction m with
  | nil => simp [place]
  | cons e rest ih =>
    obtain ⟨k', v'⟩ := e
    by_cases h : k < k' <;> simp [place, h, ih]

theorem mem_keys_place [LinearOrder Key] (k : Key) (v : Value) (m : List (Key × Value))
    (x : Key) : x ∈ (place k v m).map Prod.fst ↔ x = k ∨ x ∈ m.map Prod.fst := by
  induction m with
  | nil => simp [place]
  | cons e rest ih =>
    obtain ⟨k', v'⟩ := e
    by_cases h : k < k'
    · simp [place, h]
    · simp only [place, h, if_false, List.map_cons, List.mem_cons, ih]
      tauto

theorem find_place_self [LinearOrder Key] (k : Key) (v : Value) (m : List (Key × Value))
    (hk : find m k = none) : find (place k v m) k = some v := by
  induction m with
  | nil => simp [place, find]
  | cons e rest ih =>
    obtain ⟨k', v'⟩ := e
    by_cases hkk : k' = k
    · simp [find, hkk] at hk
    · have hrest : find rest k = none := by simpa [find, hkk] using hk
      by_cases h : k < k'
      · simp [place, h, find]
      · simp [place, h, find, hkk, ih hrest]

theorem find_place_ne [LinearOrder Key] (k : Key) (v : Value) (m : List (Key × Value))
    (j : Key) (hj : j ≠ k) : find (place k v m) j = find m j := by
  have hj' : ¬ k = j := fun c => hj c.symm
  induction m with
  | nil => simp [place, find, hj']
  | cons e rest ih =>
    obtain ⟨k', v'⟩ := e
    by_cases h : k < k'
    · simp [place, h, find, hj']
    · by_cases hkk : k' = j
      · subst hkk
        simp [place, h, find]
      · simp [place, h, find, hkk, ih]

theorem place_sorted [LinearOrder Key] (k : Key) (v : Value) (m : List (Key × Value))
    (hk : k ∉ m.map Prod.fst) (hm : (m.map Prod.fst).Pairwise (fun a b => a < b)) :
    ((place k v m).map Prod.fst).Pairwise (fun a b => a < b) := by
  induction m with
  | nil => simp [place]
  | cons e rest ih =>
    obtain ⟨k', v'⟩ := e
    simp only [List.map_cons, List.mem_cons, not_or] at hk
    simp only [List.map_cons, List.pairwise_cons] at hm
    by_cases h : k < k'
    · simp only [place, h, if_true, List.map_cons, List.pairwise_cons, List.mem_cons]
      refine ⟨?_, hm.1, hm.2⟩
      intro a ha
      rcases ha with rfl | ha
      · exact h
      · exact lt_trans h (hm.1 a ha)
    · simp only [place, h, if_false, List.map_cons, List.pairwise_cons]
      refine ⟨?_, ih hk.2 hm.2⟩
      intro a ha
      rcases (mem_keys_place k v rest a).1 ha with rfl | ha
      · exact lt_of_le_of_ne (not_lt.1 h) (fun c => hk.1 c.symm)
      · exact hm.1 a ha

theorem keys_replace [DecidableEq Key] (m : List (Key × Value)) (j : Key) (x : Value) :
    (replace m j x).map Prod.fst = m.map Prod.fst := by
  induction m with
  | nil => simp [replace]
  | cons e rest ih =>
    obtain ⟨k, v⟩ := e
    by_cases h : k = j <;> simp [replace, h, ih]

theorem find_replace_self [DecidableEq Key] (m : List (Key × Value)) (j : Key) (x : Value)
    (hj : (find m j).isSome = true) : find (replace m j x) j = some x := by
  induction m with
  | nil => simp [find] at hj
  | cons e rest ih =>
    obtain ⟨k, v⟩ := e
    by_cases h : k = j
    · simp [replace, find, h]
    · simp only [find, h, if_false] at hj
      simp [replace, find, h, ih hj]

theorem find_replace_ne [DecidableEq Key] (m : List (Key × Value)) (j : Key) (x : Value)
    (i : Key) (hi : i ≠ j) : find (replace m j x) i = find m i := by
  induction m with
  | nil => simp [replace]
  | cons e rest ih =>
    obtain ⟨k, v⟩ := e
    by_cases h : k = j
    · have hki : ¬ k = i := fun c => hi (c.symm.trans h)
      have hji : ¬ j = i := fun c => hi c.symm
      simp [replace, find, h, hki, hji]
    · by_cases hki : k = i
      · subst hki
        simp [replace, find, h]
      · simp [replace, find, h, hki, ih]

theorem find_erase_ne [DecidableEq Key] (m : List (Key × Value)) (j i : Key)
    (hi : i ≠ j) : find (erase m j) i = find m i := by
  induction m with
  | nil => simp [erase]
  | cons e rest ih =>
    obtain ⟨k, v⟩ := e
    by_cases h : k = j
    · have hki : ¬ k = i := fun c => hi (c.symm.trans h)
      have hji : ¬ j = i := fun c => hi c.symm
      simp [erase, find, h, hji]
    · by_cases hki : k = i
      · subst hki
        simp [erase, find, h]
      · simp [erase, find, h, hki, ih]

theorem length_erase [DecidableEq Key] (m : List (Key × Value)) (j : Key)
    (hj : (find m j).isSome = true) : (erase m j).length + 1 = m.length := by
  induction m with
  | nil => simp [find] at hj
  | cons e rest ih =>
    obtain ⟨k, v⟩ := e
    by_cases h : k = j
    · simp [erase, h]
    · simp only [find, h, if_false] at hj
      simp [erase, h, ih hj]

theorem keys_erase_sublist [DecidableEq Key] (m : List (Key × Value)) (j : Key) :
    ((erase m j).map Prod.fst).Sublist (m.map Prod.fst) := by
  induction m with
  | nil => simp [erase]
  | cons e rest ih =>
    obtain ⟨k, v⟩ := e
    by_cases h : k = j
    · simp [erase, h]
    · simpa [erase, h] using ih

theorem find_erase_self [LinearOrder Key] (m : List (Key × Value)) (j : Key)
    (hm : (m.map Prod.fst).Pairwise (fun a b => a < b)) : find (erase m j) j = none := by
  induction m with
  | nil => simp [erase, find]
  | cons e rest ih =>
    obtain ⟨k, v⟩ := e
    simp only [List.map_cons, List.pairwise_cons] at hm
    by_cases h : k = j
    · subst h
      simp only [erase, if_true]
      rw [find_eq_none_iff]
      intro c
      exact lt_irrefl _ (hm.1 _ c)
    · simp [erase, find, h, ih hm.2]

end ptr_map

/-! ## insert, update, erase -/

namespace DynamicValues

variable {Key Value R : Type}

theorem ordered_insert [LinearOrder Key] (ops : ValueOps Value R)
    (S : DynamicValues Key Value) (j : Key) (val : Value) (hS : S.Ordered) :
    (S.insert ops j val).state.Ordered := by
  unfold insert ptr_map.insert
  cases hf : ptr_map.find S.values_ j with
  | some x => simpa using hS
  | none =>
    simp only [Bool.not_true, Bool.false_eq_true, if_false]
    exact ptr_map.place_sorted j _ S.values_ ((ptr_map.find_eq_none_iff _ _).1 hf) hS

theorem ordered_update [LinearOrder Key] (ops : ValueOps Value R)
    (S : DynamicValues Key Value) (j : Key) (val : Value) (hS : S.Ordered) :
    (S.update ops j val).state.Ordered := by
  unfold update
  cases hf : ptr_map.find S.values_ j with
  | none => simpa using hS
  | some item =>
    by_cases ht : ops.typeid item = ops.typeid val
    · simp only [ht, ne_eq, not_true_eq_false, if_false]
      unfold Ordered
      rw [ptr_map.keys_replace]
      exact hS
    · simpa [ht] using hS

theorem ordered_erase [LinearOrder Key] (S : DynamicValues Key Value) (j : Key)
    (hS : S.Ordered) : (S.erase j).state.Ordered := by
  unfold erase
  cases hf : ptr_map.find S.values_ j with
  | none => simpa using hS
  | some item => exact List.Pairwise.sublist (ptr_map.keys_erase_sublist S.values_ j) hS

/-- C1. Inserting under a key that is already present fails with
`DynamicValuesKeyAlreadyExists` and the store after the call is the store before it: the
same keys, the same size and the same stored value under every key, the key of the call
included. -/
theorem insert_existing_key_fails [LinearOrder Key] (ops : ValueOps Value R)
    (S : DynamicValues Key Value) (k : Key) (v : Value) (hk : S.exists_ k = true) :
    (S.insert ops k v).result = .error (.DynamicValuesKeyAlreadyExists k) ∧
      (S.insert ops k v).state = S ∧
      (S.insert ops k v).state.keys = S.keys ∧
      (S.insert ops k v).state.size = S.size ∧
      ∀ j, ptr_map.find (S.insert ops k v).state.values_ j = ptr_map.find S.values_ j := by
  unfold exists_ at hk
  have hstate : (S.insert ops k v).state = S := by
    unfold insert ptr_map.insert
    cases hf : ptr_map.find S.values_ k with
    | some x => simp
    | none => simp [hf] at hk
  refine ⟨?_, hstate, by rw [hstate], by rw [hstate], fun j => by rw [hstate]⟩
  unfold insert ptr_map.insert
  cases hf : ptr_map.find S.values_ k with
  | some x => simp
  | none => simp [hf] at hk

theorem insert_existing_key_fails_witness :
    (exStore.insert exOps 3 (exScalar 7)).result = .error (.DynamicValuesKeyAlreadyExists 3) ∧
      (exStore.insert exOps 3 (exScalar 7)).state = exStore :=
  ⟨(insert_existing_key_fails exOps exStore 3 (exScalar 7) (by decide)).1,
    (insert_existing_key_fails exOps exStore 3 (exScalar 7) (by decide)).2.1⟩

/-- C2. Inserting under a key that is not present succeeds; afterwards the key exists,
the value stored under it is the clone of the argument (which compares equal to the
argument under `equals_` with tolerance 0, clones being equal to their originals), the
size has grown by exactly one, and every other key has the value it had. -/
theorem insert_new_key_succeeds [LinearOrder Key] [Zero R] (ops : ValueOps Value R)
    (S : DynamicValues Key Value) (k : Key) (v : Value) (hk : S.exists_ k = false)
    (hclone : ops.equals_ (ops.clone_ v) v 0 = true) :
    (S.insert ops k v).result = .ok () ∧
      (S.insert ops k v).state.exists_ k = true ∧
      ptr_map.find (S.insert ops k v).state.values_ k = some (ops.clone_ v) ∧
      (∃ stored, ptr_map.find (S.insert ops k v).state.values_ k = some stored ∧
        ops.equals_ stored v 0 = true) ∧
      (S.insert ops k v).state.size = S.size + 1 ∧
      ∀ j, j ≠ k →
        ptr_map.find (S.insert ops k v).state.values_ j = ptr_map.find S.values_ j := by
  unfold exists_ at hk
  have hf : ptr_map.find S.values_ k = none := by
    cases h : ptr_map.find S.values_ k with
    | none => rfl
    | some x => simp [h] at hk
  have hstate : (S.insert ops k v).state = ⟨ptr_map.place k (ops.clone_ v) S.values_⟩ := by
    simp [insert, ptr_map.insert, hf]
  have hself := ptr_map.find_place_self k (ops.clone_ v) S.values_ hf
  refine ⟨by simp [insert, ptr_map.insert, hf], ?_, ?_, ?_, ?_, ?_⟩
  · rw [hstate]; simp [exists_, hself]
  · rw [hstate]; exact hself
  · exact ⟨ops.clone_ v, by rw [hstate]; exact hself, hclone⟩
  · rw [hstate]; simp [size, ptr_map.length_place]
  · intro j hj
    rw [hstate]
    exact ptr_map.find_place_ne k _ S.values_ j hj

theorem insert_new_key_succeeds_witness :
    (exStore.insert exOps 2 (exScalar 7)).result = .ok () ∧
      (exStore.insert exOps 2 (exScalar 7)).state.exists_ 2 = true ∧
      ptr_map.find (exStore.insert exOps 2 (exScalar 7)).state.values_ 2
        = some (exScalar 7) ∧
      (exStore.insert exOps 2 (exScalar 7)).state.size = 3 :=
  have h := insert_new_key_succeeds exOps exStore 2 (exScalar 7) (by decide) (by decide)
  ⟨h.1, h.2.1, h.2.2.1, h.2.2.2.2.1⟩

end DynamicValues

namespace DynamicValues

variable {Key Value R : Type}

/-- C3. Updating a present key with a value whose runtime type differs from the stored
one fails with `DynamicValuesIncorrectType` and leaves the store as it was; and whatever
the outcome of an update, the runtime type stored under every key is the one stored
before the call (a clone has the runtime type of its original). -/
theorem update_keeps_stored_type [DecidableEq Key] (ops : ValueOps Value R)
    (S : DynamicValues Key Value) (k : Key) (v : Value)
    (hclone : ∀ x, ops.typeid (ops.clone_ x) = ops.typeid x) :
    (∀ stored, ptr_map.find S.values_ k = some stored → ops.typeid stored ≠ ops.typeid v →
        (S.update ops k v).result
            = .error (.DynamicValuesIncorrectType k (ops.typeid stored) (ops.typeid v)) ∧
          (S.update ops k v).state = S) ∧
      ∀ j, (ptr_map.find (S.update ops k v).state.values_ j).map ops.typeid
        = (ptr_map.find S.values_ j).map ops.typeid := by
  constructor
  · intro stored hf ht
    simp [update, hf, ht]
  · intro j
    unfold update
    cases hf : ptr_map.find S.values_ k with
    | none => rfl
    | some item =>
      by_cases ht : ops.typeid item = ops.typeid v
      · simp only [ht, ne_eq, not_true_eq_false, if_false]
        by_cases hj : j = k
        · subst hj
          rw [ptr_map.find_replace_self S.values_ j _ (by simp [hf]), hf]
          simp [hclone, ht]
        · rw [ptr_map.find_replace_ne S.values_ k _ j hj]
      · simp [ht]

theorem update_keeps_stored_type_witness :
    (exStore.update exOps 3 (exScalar 7)).result
        = .error (.DynamicValuesIncorrectType 3 2 1) ∧
      (exStore.update exOps 3 (exScalar 7)).state = exStore :=
  (update_keeps_stored_type exOps exStore 3 (exScalar 7) (fun _ => rfl)).1
    (exPoint 1 2) (by decide) (by decide)

/-- C4. Updating a key that is not present fails with `DynamicValuesKeyDoesNotExist`,
whatever the type of the value, and leaves the store as it was; and whatever the outcome
of an update, the keys of the store are the keys it had before. -/
theorem update_absent_key_fails [DecidableEq Key] (ops : ValueOps Value R)
    (S : DynamicValues Key Value) (k : Key) (v : Value) :
    (S.exists_ k = false →
        (S.update ops k v).result = .error (.DynamicValuesKeyDoesNotExist "update" k) ∧
          (S.update ops k v).state = S) ∧
      (S.update ops k v).state.keys = S.keys := by
  constructor
  · intro hk
    unfold exists_ at hk
    cases hf : ptr_map.find S.values_ k with
    | none => simp [update, hf]
    | some x => simp [hf] at hk
  · unfold update
    cases hf : ptr_map.find S.values_ k with
    | none => rfl
    | some item =>
      by_cases ht : ops.typeid item = ops.typeid v
      · simp [ht, keys, ptr_map.keys_replace]
      · simp [ht]

theorem update_absent_key_fails_witness :
    (exStore.update exOps 2 (exScalar 7)).result
        = .error (.DynamicValuesKeyDoesNotExist "update" 2) ∧
      (exStore.update exOps 2 (exScalar 7)).state = exStore :=
  (update_absent_key_fails exOps exStore 2 (exScalar 7)).1 (by decide)

/-- C5. Updating a present key with a value of the stored runtime type succeeds; the
value stored under the key afterwards is the clone of the argument, and the keys, the
size and the value under every other key are as before. -/
theorem update_same_type_succeeds [DecidableEq Key] (ops : ValueOps Value R)
    (S : DynamicValues Key Value) (k : Key) (v stored : Value)
    (hk : ptr_map.find S.values_ k = some stored)
    (ht : ops.typeid stored = ops.typeid v) :
    (S.update ops k v).result = .ok () ∧
      ptr_map.find (S.update ops k v).state.values_ k = some (ops.clone_ v) ∧
      (S.update ops k v).state.keys = S.keys ∧
      (S.update ops k v).state.size = S.size ∧
      ∀ j, j ≠ k →
        ptr_map.find (S.update ops k v).state.values_ j = ptr_map.find S.values_ j := by
  have hstate : (S.update ops k v).state = ⟨ptr_map.replace S.values_ k (ops.clone_ v)⟩ := by
    simp [update, hk, ht]
  have hkeys : (S.update ops k v).state.keys = S.keys := by
    rw [hstate]; simp [keys, ptr_map.keys_replace]
  refine ⟨by simp [update, hk, ht], ?_, hkeys, ?_, ?_⟩
  · rw [hstate]
    exact ptr_map.find_replace_self S.values_ k _ (by simp [hk])
  · have h := congrArg List.length hkeys
    simpa [keys, size] using h
  · intro j hj
    rw [hstate]
    exact ptr_map.find_replace_ne S.values_ k _ j hj

theorem update_same_type_succeeds_witness :
    (exStore.update exOps 3 (exPoint 8 9)).result = .ok () ∧
      ptr_map.find (exStore.update exOps 3 (exPoint 8 9)).state.values_ 3
        = some (exPoint 8 9) ∧
      (exStore.update exOps 3 (exPoint 8 9)).state.keys = [1, 3] :=
  have h := update_same_type_succeeds exOps exStore 3 (exPoint 8 9) (exPoint 1 2)
    (by decide) (by decide)
  ⟨h.1, h.2.1, h.2.2.1⟩

/-- C6. Erasing fails with `DynamicValuesKeyDoesNotExist` exactly when the key is not
present (and succeeds exactly when it is), and a failed erase leaves the store as it
was. -/
theorem erase_fails_iff_absent [DecidableEq Key] (S : DynamicValues Key Value) (k : Key) :
    ((S.erase k).result = .error (.DynamicValuesKeyDoesNotExist "erase" k)
        ↔ S.exists_ k = false) ∧
      ((S.erase k).result = .ok () ↔ S.exists_ k = true) ∧
      (S.exists_ k = false → (S.erase k).state = S) := by
  unfold exists_ erase
  cases hf : ptr_map.find S.values_ k <;> simp

theorem erase_fails_iff_absent_witness :
    (exStore.erase 2).result = .error (.DynamicValuesKeyDoesNotExist "erase" 2) ∧
      (exStore.erase 2).state = exStore :=
  have h := erase_fails_iff_absent exStore 2
  ⟨h.1.2 (by decide), h.2.2 (by decide)⟩

/-- C7. Erasing a present key succeeds; afterwards the key does not exist, the size has
shrunk by exactly one, and every other key is present exactly when it was, with the value
it had. -/
theorem erase_present_key_succeeds [LinearOrder Key] (S : DynamicValues Key Value)
    (k : Key) (hS : S.Ordered) (hk : S.exists_ k = true) :
    (S.erase k).result = .ok () ∧
      (S.erase k).state.exists_ k = false ∧
      (S.erase k).state.size + 1 = S.size ∧
      ∀ j, j ≠ k →
        (S.erase k).state.exists_ j = S.exists_ j ∧
          ptr_map.find (S.erase k).state.values_ j = ptr_map.find S.values_ j := by
  unfold exists_ at hk
  cases hf : ptr_map.find S.values_ k with
  | none => simp [hf] at hk
  | some item =>
    have hstate : (S.erase k).state = ⟨ptr_map.erase S.values_ k⟩ := by simp [erase, hf]
    refine ⟨by simp [erase, hf], ?_, ?_, ?_⟩
    · rw [hstate]
      simp [exists_, ptr_map.find_erase_self S.values_ k hS]
    · rw [hstate]
      exact ptr_map.length_erase S.values_ k hk
    · intro j hj
      rw [hstate]
      simp [exists_, ptr_map.find_erase_ne S.values_ k j hj]

theorem erase_present_key_succeeds_witness :
    (exStore.erase 3).result = .ok () ∧
      (exStore.erase 3).state.exists_ 3 = false ∧
      (exStore.erase 3).state.size + 1 = exStore.size :=
  have h := erase_present_key_succeeds exStore 3 (by decide) (by decide)
  ⟨h.1, h.2.1, h.2.2.1⟩

end DynamicValues

/-! ## retract -/

namespace ptr_map

variable {Key Value : Type}

theorem insert_sorted [LinearOrder Key] (m : List (Key × Value)) (k : Key) (v : Value)
    (hm : (m.map Prod.fst).Pairwise (fun a b => a < b)) :
    (((insert m k v).1).map Prod.fst).Pairwise (fun a b => a < b) := by
  unfold insert
  cases hf : find m k with
  | some x => exact hm
  | none => exact place_sorted k v m ((find_eq_none_iff _ _).1 hf) hm

theorem find_insert [LinearOrder Key] (m : List (Key × Value)) (k : Key) (v : Value)
    (j : Key) :
    find (insert m k v).1 j = (find m j).or (if k = j then some v else none) := by
  unfold insert
  cases hf : find m k with
  | some x =>
    by_cases hj : k = j
    · subst hj; simp [hf]
    · simp [hj]
  | none =>
    by_cases hj : k = j
    · subst hj; simp [hf, find_place_self k v m hf]
    · simp [hj, find_place_ne k v m j (fun c => hj c.symm)]

/-- Two strictly ascending key sequences with the same members are the same sequence. -/
theorem keys_eq_of_mem_iff [LinearOrder Key] (l₁ l₂ : List Key)
    (h₁ : l₁.Pairwise (fun a b => a < b)) (h₂ : l₂.Pairwise (fun a b => a < b))
    (hmem : ∀ k, k ∈ l₁ ↔ k ∈ l₂) : l₁ = l₂ := by
  have n₁ : l₁.Nodup := h₁.imp (fun h => ne_of_lt h)
  have n₂ : l₂.Nodup := h₂.imp (fun h => ne_of_lt h)
  have hp : l₁.Perm l₂ := (List.perm_ext_iff_of_nodup n₁ n₂).2 hmem
  exact List.eq_of_perm_of_sorted hp h₁ h₂

end ptr_map

namespace DynamicValues

variable {Key Value R : Type}

theorem retractLoop_spec [LinearOrder Key] (ops : ValueOps Value R)
    (delta : VectorValues R) (ordering : Ordering Key) (l : List (Key × Value)) :
    ∀ acc : DynamicValues Key Value,
      (∀ k ∈ l.map Prod.fst, (ordering.tryAt k).isSome = true) →
      ∃ out, retractLoop ops delta ordering l acc = .ok out ∧
        (acc.Ordered → out.Ordered) ∧
        ∀ j, ptr_map.find out.values_ j =
          (ptr_map.find acc.values_ j).or
            ((ptr_map.find l j).bind fun v =>
              (ordering.tryAt j).map fun index => ops.retract_ v (delta.subscript index)) := by
  induction l with
  | nil =>
    intro acc _
    exact ⟨acc, rfl, id, fun j => by simp [ptr_map.find]⟩
  | cons e rest ih =>
    obtain ⟨k, v⟩ := e
    intro acc hcover
    have hk : (ordering.tryAt k).isSome = true := hcover k (by simp)
    obtain ⟨index, hindex⟩ := Option.isSome_iff_exists.1 hk
    have hrest : ∀ k' ∈ rest.map Prod.fst, (ordering.tryAt k').isSome = true :=
      fun k' hk' => hcover k' (by simp only [List.map_cons, List.mem_cons]; exact Or.inr hk')
    obtain ⟨out, hout, hord, hfind⟩ :=
      ih ⟨(ptr_map.insert acc.values_ k (ops.retract_ v (delta.subscript index))).1⟩ hrest
    refine ⟨out, ?_, ?_, ?_⟩
    · simp only [retractLoop, Ordering.subscript, hindex]
      exact hout
    · intro hacc
      exact hord (ptr_map.insert_sorted acc.values_ k _ hacc)
    · intro j
      rw [hfind j, ptr_map.find_insert]
      by_cases hj : k = j
      · subst hj
        cases ptr_map.find acc.values_ k <;> simp [ptr_map.find, hindex]
      · cases ptr_map.find acc.values_ j <;> simp [ptr_map.find, hj]

/-- C8. For a store and an ordering that has an index for every key of the store, and
any delta, `retract` returns a store with exactly the keys of the receiver (in the same
iteration order) in which the value under each key is the stored value's `retract_`
applied to the slice of the delta at the key's index.  The receiver is an argument of a
pure function (the member function is `const`), so it is the same store afterwards. -/
theorem retract_returns_retracted_values [LinearOrder Key] (ops : ValueOps Value R)
    (S : DynamicValues Key Value) (delta : VectorValues R) (ordering : Ordering Key)
    (hS : S.Ordered) (hcover : ∀ k ∈ S.keys, (ordering.tryAt k).isSome = true) :
    ∃ out, S.retract ops delta ordering = .ok out ∧
      out.keys = S.keys ∧
      ∀ k v, ptr_map.find S.values_ k = some v →
        ∃ index, ordering.tryAt k = some index ∧
          ptr_map.find out.values_ k = some (ops.retract_ v (delta.subscript index)) := by
  obtain ⟨out, hout, hord, hfind⟩ := retractLoop_spec ops delta ordering S.values_ empty hcover
  have hvalue : ∀ k v, ptr_map.find S.values_ k = some v →
      ∃ index, ordering.tryAt k = some index ∧
        ptr_map.find out.values_ k = some (ops.retract_ v (delta.subscript index)) := by
    intro k v hv
    have hmem : k ∈ S.keys := (ptr_map.find_isSome_iff S.values_ k).1 (by simp [hv])
    obtain ⟨index, hindex⟩ := Option.isSome_iff_exists.1 (hcover k hmem)
    exact ⟨index, hindex, by simp [hfind k, empty, ptr_map.find, hv, hindex]⟩
  refine ⟨out, hout, ?_, hvalue⟩
  apply ptr_map.keys_eq_of_mem_iff _ _ (hord (by simp [Ordered, empty])) hS
  intro k
  constructor
  · intro hk
    by_contra hnot
    have hnone : ptr_map.find S.values_ k = none := (ptr_map.find_eq_none_iff _ _).2 hnot
    have hsome := (ptr_map.find_isSome_iff out.values_ k).2 hk
    simp [hfind k, empty, ptr_map.find, hnone] at hsome
  · intro hk
    obtain ⟨v, hv⟩ := Option.isSome_iff_exists.1 ((ptr_map.find_isSome_iff S.values_ k).2 hk)
    obtain ⟨index, _, hres⟩ := hvalue k v hv
    exact (ptr_map.find_isSome_iff out.values_ k).1 (by simp [hres])

theorem retract_returns_retracted_values_witness :
    ∃ out, exStore.retract exOps exDelta exOrdering = .ok out ∧
      out.keys = exStore.keys ∧
      ∀ k v, ptr_map.find exStore.values_ k = some v →
        ∃ index, exOrdering.tryAt k = some index ∧
          ptr_map.find out.values_ k = some (exOps.retract_ v (exDelta.subscript index)) :=
  retract_returns_retracted_values exOps exStore exDelta exOrdering (by decide) (by decide)

end DynamicValues

/-! ## localCoordinates -/

namespace DynamicValues

variable {Key Value R : Type}

theorem localCoordinatesLoop_keys_of_ok [DecidableEq Key] (ops : ValueOps Value R)
    (ordering : Ordering Key) (l₁ : List (Key × Value)) :
    ∀ (l₂ : List (Key × Value)) (result : VectorValues R), l₁.length = l₂.length →
      (localCoordinatesLoop ops ordering l₁ l₂ result).result = .ok () →
      l₁.map Prod.fst = l₂.map Prod.fst := by
  induction l₁ with
  | nil =>
    intro l₂ result hlen _
    cases l₂ with
    | nil => rfl
    | cons e rest => simp at hlen
  | cons e₁ rest₁ ih =>
    intro l₂ result hlen hok
    cases l₂ with
    | nil => simp at hlen
    | cons e₂ rest₂ =>
      obtain ⟨k₁, v₁⟩ := e₁
      obtain ⟨k₂, v₂⟩ := e₂
      by_cases hk : k₁ = k₂
      · subst hk
        simp only [localCoordinatesLoop, ne_eq, not_true_eq_false, if_false] at hok
        cases hsub : ordering.subscript k₁ with
        | error e => simp [hsub] at hok
        | ok index =>
          cases hlc : (ops.localCoordinates_ v₁ v₂ : Except (Error Key) (Vector R)) with
          | error e => simp [hsub, hlc] at hok
          | ok v =>
            simp only [hsub, hlc] at hok
            simp [ih rest₂ _ (by simpa using hlen) hok]
      · simp [localCoordinatesLoop, hk] at hok

theorem localCoordinatesLoop_first_mismatch [DecidableEq Key] (ops : ValueOps Value R)
    (ordering : Ordering Key) (n : Nat) :
    ∀ (l₁ l₂ : List (Key × Value)) (result : VectorValues R), l₁.length = l₂.length →
      (l₁.map Prod.fst).take n = (l₂.map Prod.fst).take n →
      (l₁.map Prod.fst)[n]? ≠ (l₂.map Prod.fst)[n]? →
      (∀ p ∈ (l₁.zip l₂).take n, ops.typeid p.1.2 = ops.typeid p.2.2) →
      (∀ k ∈ (l₁.map Prod.fst).take n, (ordering.tryAt k).isSome = true) →
      (localCoordinatesLoop ops ordering l₁ l₂ result).result
        = .error .DynamicValuesMismatched := by
  induction n with
  | zero =>
    intro l₁ l₂ result hlen _ hne _ _
    cases l₁ with
    | nil =>
      cases l₂ with
      | nil => simp at hne
      | cons e rest => simp at hlen
    | cons e₁ rest₁ =>
      cases l₂ with
      | nil => simp at hlen
      | cons e₂ rest₂ =>
        obtain ⟨k₁, v₁⟩ := e₁
        obtain ⟨k₂, v₂⟩ := e₂
        have hk : k₁ ≠ k₂ := by simpa using hne
        simp [localCoordinatesLoop, hk]
  | succ n ih =>
    intro l₁ l₂ result hlen htake hne htypes hcover
    cases l₁ with
    | nil =>
      cases l₂ with
      | nil => simp at hne
      | cons e rest => simp at hlen
    | cons e₁ rest₁ =>
      cases l₂ with
      | nil => simp at hlen
      | cons e₂ rest₂ =>
        obtain ⟨k₁, v₁⟩ := e₁
        obtain ⟨k₂, v₂⟩ := e₂
        simp only [List.map_cons, List.take_succ_cons, List.cons.injEq] at htake
        obtain ⟨hk, htake⟩ := htake
        subst hk
        have ht : ops.typeid v₁ = ops.typeid v₂ :=
          htypes ((k₁, v₁), (k₁, v₂)) (by simp)
        have hc : (ordering.tryAt k₁).isSome = true := hcover k₁ (by simp)
        obtain ⟨index, hindex⟩ := Option.isSome_iff_exists.1 hc
        simp only [localCoordinatesLoop, ne_eq, not_true_eq_false, if_false,
          Ordering.subscript, hindex, ValueOps.localCoordinates_, ht, if_true]
        apply ih rest₁ rest₂ _ (by simpa using hlen) htake (by simpa using hne)
        · intro p hp
          exact htypes p (by simp [hp])
        · intro k hk
          exact hcover k (by simp [hk])

/-- C9 (as amended). A call of `localCoordinates` on stores of different sizes fails with
`DynamicValuesMismatched`; a call on stores whose key sequences differ never returns a
result; and when `n` is the first position at which the keys differ, every earlier pair
of values has the same runtime type and the ordering has an index for every earlier key,
the failure is `DynamicValuesMismatched`.  A failure of the three-argument form is the
failure of the two-argument form.  Both stores are arguments of a pure function (the
member function is `const` and takes `cp` by `const` reference). -/
theorem localCoordinates_mismatched_stores_fail [DecidableEq Key] [Zero R]
    (ops : ValueOps Value R) (A B : DynamicValues Key Value) (ordering : Ordering Key)
    (result : VectorValues R) :
    (A.size ≠ B.size →
        (A.localCoordinatesInto ops B ordering result).result
          = .error .DynamicValuesMismatched) ∧
      (A.keys ≠ B.keys →
        ∃ e, (A.localCoordinatesInto ops B ordering result).result = .error e) ∧
      (∀ n, A.keys.take n = B.keys.take n → A.keys[n]? ≠ B.keys[n]? →
        (∀ p ∈ (A.values_.zip B.values_).take n, ops.typeid p.1.2 = ops.typeid p.2.2) →
        (∀ k ∈ A.keys.take n, (ordering.tryAt k).isSome = true) →
        (A.localCoordinatesInto ops B ordering result).result
          = .error .DynamicValuesMismatched) ∧
      ∀ e, (A.localCoordinatesInto ops B ordering
            (VectorValues.ofDims (A.dims ops ordering))).result = .error e →
        A.localCoordinates ops B ordering = .error e := by
  refine ⟨?_, ?_, ?_, ?_⟩
  · intro hsize
    simp [localCoordinatesInto, hsize]
  · intro hkeys
    by_cases hsize : A.size = B.size
    · cases hres : (A.localCoordinatesInto ops B ordering result).result with
      | error e => exact ⟨e, rfl⟩
      | ok u =>
        exfalso
        apply hkeys
        simp only [localCoordinatesInto, hsize, ne_eq, not_true_eq_false, if_false] at hres
        exact localCoordinatesLoop_keys_of_ok ops ordering A.values_ B.values_ result hsize hres
    · exact ⟨.DynamicValuesMismatched, by simp [localCoordinatesInto, hsize]⟩
  · intro n htake hne htypes hcover
    by_cases hsize : A.size = B.size
    · simp only [localCoordinatesInto, hsize, ne_eq, not_true_eq_false, if_false]
      exact localCoordinatesLoop_first_mismatch ops ordering n A.values_ B.values_ result
        hsize htake hne htypes hcover
    · simp [localCoordinatesInto, hsize]
  · intro e he
    simp [localCoordinates, he]

theorem localCoordinates_mismatched_stores_fail_witness :
    (exStore.localCoordinatesInto exOps exPairA exOrdering3 exDelta).result
      = .error .DynamicValuesMismatched :=
  (localCoordinates_mismatched_stores_fail exOps exStore exPairA exOrdering3 exDelta).2.2.1 1
    (by decide) (by decide) (by decide) (by decide)

/-- C9, as stated, fails: the stores `exStoreA` and `exStoreB` have the same size and
their second keys differ, yet the call does not fail with the mismatch error: the walk
first meets the pair under key 1, whose values have different runtime types, and the
failure is the cast failure. -/
theorem localCoordinates_mismatch_error_counterexample :
    exStoreA.size = exStoreB.size ∧ exStoreA.keys ≠ exStoreB.keys ∧
      exStoreA.localCoordinates exOps exStoreB exOrdering3 = .error .bad_cast ∧
      exStoreA.localCoordinates exOps exStoreB exOrdering3
        ≠ .error .DynamicValuesMismatched := by
  refine ⟨by decide, by decide, rfl, ?_⟩
  intro h
  have h' : (Except.error Error.bad_cast : Except (Error Nat) (VectorValues Int))
      = .error .DynamicValuesMismatched := h
  cases h'

end DynamicValues

namespace DynamicValues

variable {Key Value R : Type}

theorem localCoordinatesLoop_spec [DecidableEq Key] (ops : ValueOps Value R)
    (ordering : Ordering Key) (l₁ : List (Key × Value)) :
    ∀ (l₂ : List (Key × Value)) (result : VectorValues R),
      l₁.map Prod.fst = l₂.map Prod.fst →
      (l₁.map Prod.fst).Nodup →
      (∀ k a b, ptr_map.find l₁ k = some a → ptr_map.find l₂ k = some b →
        ops.typeid a = ops.typeid b) →
      (∀ k ∈ l₁.map Prod.fst, (ordering.tryAt k).isSome = true) →
      (∀ k₁ ∈ l₁.map Prod.fst, ∀ k₂ ∈ l₁.map Prod.fst, ∀ i,
        ordering.tryAt k₁ = some i → ordering.tryAt k₂ = some i → k₁ = k₂) →
      (localCoordinatesLoop ops ordering l₁ l₂ result).result = .ok () ∧
        (∀ i, (∀ k ∈ l₁.map Prod.fst, ordering.tryAt k ≠ some i) →
          (localCoordinatesLoop ops ordering l₁ l₂ result).state i = result i) ∧
        ∀ k a b i, ptr_map.find l₁ k = some a → ptr_map.find l₂ k = some b →
          ordering.tryAt k = some i →
          (localCoordinatesLoop ops ordering l₁ l₂ result).state i
            = ops.localCoordinates a b := by
  induction l₁ with
  | nil =>
    intro l₂ result _ _ _ _ _
    refine ⟨rfl, fun _ _ => rfl, ?_⟩
    intro k a b i ha
    simp [ptr_map.find] at ha
  | cons e₁ rest₁ ih =>
    intro l₂ result hkeys hnodup htypes hcover hinj
    cases l₂ with
    | nil => simp at hkeys
    | cons e₂ rest₂ =>
      obtain ⟨k₁, v₁⟩ := e₁
      obtain ⟨k₂, v₂⟩ := e₂
      simp only [List.map_cons, List.cons.injEq] at hkeys
      obtain ⟨hk, hkeys⟩ := hkeys
      subst hk
      simp only [List.map_cons, List.nodup_cons] at hnodup
      obtain ⟨hnotin, hnodup⟩ := hnodup
      have hnotin₂ : k₁ ∉ rest₂.map Prod.fst := hkeys ▸ hnotin
      have ht : ops.typeid v₁ = ops.typeid v₂ :=
        htypes k₁ v₁ v₂ (by simp [ptr_map.find]) (by simp [ptr_map.find])
      obtain ⟨index, hindex⟩ := Option.isSome_iff_exists.1 (hcover k₁ (by simp))
      have hne : ∀ k ∈ rest₁.map Prod.fst, ¬ k₁ = k := fun k hk c => hnotin (c ▸ hk)
      have hfind₁ : ∀ k ∈ rest₁.map Prod.fst,
          ptr_map.find ((k₁, v₁) :: rest₁) k = ptr_map.find rest₁ k :=
        fun k hk => by simp [ptr_map.find, hne k hk]
      have hfind₂ : ∀ k ∈ rest₁.map Prod.fst,
          ptr_map.find ((k₁, v₂) :: rest₂) k = ptr_map.find rest₂ k :=
        fun k hk => by simp [ptr_map.find, hne k hk]
      have hmem : ∀ k a, ptr_map.find rest₁ k = some a → k ∈ rest₁.map Prod.fst :=
        fun k a ha => (ptr_map.find_isSome_iff rest₁ k).1 (by simp [ha])
      obtain ⟨hok, hframe, hval⟩ :=
        ih rest₂ (result.insert index (ops.localCoordinates v₁ v₂)) hkeys hnodup
          (fun k a b ha hb =>
            htypes k a b (by rw [hfind₁ k (hmem k a ha)]; exact ha)
              (by rw [hfind₂ k (hmem k a ha)]; exact hb))
          (fun k hk => hcover k (by simp [hk]))
          (fun a ha b hb i hia hib =>
            hinj a (by simp [ha]) b (by simp [hb]) i hia hib)
      have hstep : localCoordinatesLoop ops ordering ((k₁, v₁) :: rest₁)
          ((k₁, v₂) :: rest₂) result
          = localCoordinatesLoop ops ordering rest₁ rest₂
              (result.insert index (ops.localCoordinates v₁ v₂)) := by
        simp [localCoordinatesLoop, Ordering.subscript, hindex,
          ValueOps.localCoordinates_, ht]
      rw [hstep]
      refine ⟨hok, ?_, ?_⟩
      · intro i hi
        rw [hframe i (fun k hk => hi k (by simp [hk]))]
        have hi₁ : ¬ i = index := fun c => hi k₁ (by simp) (c ▸ hindex)
        simp [VectorValues.insert, hi₁]
      · intro k a b i ha hb hi
        by_cases hkk : k₁ = k
        · subst hkk
          simp only [ptr_map.find, if_true, Option.some.injEq] at ha hb
          subst ha hb
          have hii : index = i := by
            rw [hindex] at hi
            exact Option.some.inj hi
          subst hii
          rw [hframe index ?_]
          · simp [VectorValues.insert]
          · intro k hk c
            exact hnotin ((hinj k (by simp [hk]) k₁ (by simp) index c hindex) ▸ hk)
        · simp only [ptr_map.find, hkk, if_false] at ha hb
          exact hval k a b i ha hb hi

/-- C10 (as amended). For stores with identical key sets whose values under each key
have the same runtime type, and an ordering that has an index for every key and gives
different keys different indices, `localCoordinates` succeeds and the slice of the
result at the index of each key is the local coordinates of the receiver's value under
that key relative to the other store's value under it. -/
theorem localCoordinates_returns_slices [LinearOrder Key] [Zero R]
    (ops : ValueOps Value R) (A B : DynamicValues Key Value) (ordering : Ordering Key)
    (hA : A.Ordered) (hB : B.Ordered) (hkeys : ∀ k, k ∈ A.keys ↔ k ∈ B.keys)
    (htypes : ∀ k a b, ptr_map.find A.values_ k = some a →
      ptr_map.find B.values_ k = some b → ops.typeid a = ops.typeid b)
    (hcover : ∀ k ∈ A.keys, (ordering.tryAt k).isSome = true)
    (hinj : ∀ k₁ ∈ A.keys, ∀ k₂ ∈ A.keys, ∀ i,
      ordering.tryAt k₁ = some i → ordering.tryAt k₂ = some i → k₁ = k₂) :
    ∃ result, A.localCoordinates ops B ordering = .ok result ∧
      ∀ k a b index, ptr_map.find A.values_ k = some a →
        ptr_map.find B.values_ k = some b → ordering.tryAt k = some index →
        result.subscript index = ops.localCoordinates a b := by
  have hlist : A.values_.map Prod.fst = B.values_.map Prod.fst :=
    ptr_map.keys_eq_of_mem_iff _ _ hA hB hkeys
  have hsize : A.size = B.size := by
    have h := congrArg List.length hlist
    simpa [size] using h
  have hnodup : (A.values_.map Prod.fst).Nodup :=
    List.Pairwise.imp (fun h => ne_of_lt h) hA
  obtain ⟨hok, _, hval⟩ :=
    localCoordinatesLoop_spec ops ordering A.values_ B.values_
      (VectorValues.ofDims (A.dims ops ordering)) hlist hnodup htypes hcover hinj
  refine ⟨(localCoordinatesLoop ops ordering A.values_ B.values_
    (VectorValues.ofDims (A.dims ops ordering))).state, ?_, ?_⟩
  · simp [localCoordinates, localCoordinatesInto, hsize, hok]
  · intro k a b index ha hb hi
    exact hval k a b index ha hb hi

theorem localCoordinates_returns_slices_witness :
    ∃ result, exPairA.localCoordinates exOps exPairB exOrdering2 = .ok result ∧
      ∀ k a b index, ptr_map.find exPairA.values_ k = some a →
        ptr_map.find exPairB.values_ k = some b → exOrdering2.tryAt k = some index →
        result.subscript index = exOps.localCoordinates a b :=
  localCoordinates_returns_slices exOps exPairA exPairB exOrdering2 (by decide) (by decide)
    (fun k => by simp [exPairA, exPairB, keys])
    (fun k a b ha hb => by
      simp only [exPairA, exPairB, ptr_map.find] at ha hb
      split_ifs at ha hb <;> simp_all [exScalar, exOps] <;>
        (obtain ⟨rfl, rfl⟩ := And.intro ha hb; rfl))
    (by decide) (by decide)

/-- C10, as stated, fails in two ways.  The stores `exScalarStore` and `exPointStore`
have the same key set, covered by `exOrdering1`, but the values under key 1 have
different runtime types and the call fails with the cast failure.  The stores `exPairA`
and `exPairB` have the same key set, covered by `exOrderingShared`, which gives keys 1
and 2 the same index: the call succeeds, and the slice at the index of key 1 holds the
local coordinates computed for key 2. -/
theorem localCoordinates_slices_counterexample :
    (exScalarStore.keys = exPointStore.keys ∧
        (∀ k ∈ exScalarStore.keys, (exOrdering1.tryAt k).isSome = true) ∧
        exScalarStore.localCoordinates exOps exPointStore exOrdering1 = .error .bad_cast) ∧
      (exPairA.keys = exPairB.keys ∧
        (∀ k ∈ exPairA.keys, (exOrderingShared.tryAt k).isSome = true) ∧
        exOrderingShared.tryAt 1 = some 0 ∧
        ∃ result, exPairA.localCoordinates exOps exPairB exOrderingShared = .ok result ∧
          result.subscript 0 = exOps.localCoordinates (exScalar 7) (exScalar 1) ∧
          result.subscript 0 ≠ exOps.localCoordinates (exScalar 5) (exScalar 1)) := by
  refine ⟨⟨by decide, by decide, rfl⟩, by decide, by decide, by decide, ?_⟩
  refine ⟨(exPairA.localCoordinatesInto exOps exPairB exOrderingShared
    (VectorValues.ofDims (exPairA.dims exOps exOrderingShared))).state, rfl, ?_, ?_⟩
  · decide
  · decide

end DynamicValues


/-! ## Round trip of retract and localCoordinates -/

namespace DynamicValues

variable {Key Value R : Type}

theorem retract_ok [LinearOrder Key] (ops : ValueOps Value R)
    (S : DynamicValues Key Value) (delta : VectorValues R) (ordering : Ordering Key)
    (hS : S.Ordered) (hcover : ∀ k ∈ S.keys, (ordering.tryAt k).isSome = true) :
    ∃ out, S.retract ops delta ordering = .ok out ∧ out.Ordered ∧ out.keys = S.keys ∧
      ∀ k v, ptr_map.find S.values_ k = some v →
        ∃ index, ordering.tryAt k = some index ∧
          ptr_map.find out.values_ k = some (ops.retract_ v (delta.subscript index)) := by
  obtain ⟨out, hout, hord, hfind⟩ := retractLoop_spec ops delta ordering S.values_ empty hcover
  have hordered : out.Ordered := hord (by simp [Ordered, empty])
  have hvalue : ∀ k v, ptr_map.find S.values_ k = some v →
      ∃ index, ordering.tryAt k = some index ∧
        ptr_map.find out.values_ k = some (ops.retract_ v (delta.subscript index)) := by
    intro k v hv
    have hmem : k ∈ S.keys := (ptr_map.find_isSome_iff S.values_ k).1 (by simp [hv])
    obtain ⟨index, hindex⟩ := Option.isSome_iff_exists.1 (hcover k hmem)
    exact ⟨index, hindex, by simp [hfind k, empty, ptr_map.find, hv, hindex]⟩
  refine ⟨out, hout, hordered, ?_, hvalue⟩
  apply ptr_map.keys_eq_of_mem_iff _ _ hordered hS
  intro k
  constructor
  · intro hk
    by_contra hnot
    have hnone : ptr_map.find S.values_ k = none := (ptr_map.find_eq_none_iff _ _).2 hnot
    have hsome := (ptr_map.find_isSome_iff out.values_ k).2 hk
    simp [hfind k, empty, ptr_map.find, hnone] at hsome
  · intro hk
    obtain ⟨v, hv⟩ := Option.isSome_iff_exists.1 ((ptr_map.find_isSome_iff S.values_ k).2 hk)
    obtain ⟨index, _, hres⟩ := hvalue k v hv
    exact (ptr_map.find_isSome_iff out.values_ k).1 (by simp [hres])

theorem localCoordinates_ok [LinearOrder Key] [Zero R]
    (ops : ValueOps Value R) (A B : DynamicValues Key Value) (ordering : Ordering Key)
    (hA : A.Ordered) (hkeys : A.keys = B.keys)
    (htypes : ∀ k a b, ptr_map.find A.values_ k = some a →
      ptr_map.find B.values_ k = some b → ops.typeid a = ops.typeid b)
    (hcover : ∀ k ∈ A.keys, (ordering.tryAt k).isSome = true)
    (hinj : ∀ k₁ ∈ A.keys, ∀ k₂ ∈ A.keys, ∀ i,
      ordering.tryAt k₁ = some i → ordering.tryAt k₂ = some i → k₁ = k₂) :
    ∃ result, A.localCoordinates ops B ordering = .ok result ∧
      ∀ k a b index, ptr_map.find A.values_ k = some a →
        ptr_map.find B.values_ k = some b → ordering.tryAt k = some index →
        result.subscript index = ops.localCoordinates a b := by
  have hsize : A.size = B.size := by
    have h := congrArg List.length hkeys
    simpa [size, keys] using h
  have hnodup : (A.values_.map Prod.fst).Nodup :=
    List.Pairwise.imp (fun h => ne_of_lt h) hA
  obtain ⟨hok, _, hval⟩ :=
    localCoordinatesLoop_spec ops ordering A.values_ B.values_
      (VectorValues.ofDims (A.dims ops ordering)) hkeys hnodup htypes hcover hinj
  refine ⟨(localCoordinatesLoop ops ordering A.values_ B.values_
    (VectorValues.ofDims (A.dims ops ordering))).state, ?_, ?_⟩
  · simp [localCoordinates, localCoordinatesInto, hsize, hok]
  · intro k a b index ha hb hi
    exact hval k a b index ha hb hi

/-- C11. Round trip: for a store, an ordering that gives every key of the store an index
and different keys different indices, and a delta whose slice at each key's index has
the dimension of the value stored under that key, retracting by the delta and taking
the local coordinates of the result relative to the original store succeeds and yields,
at the index of every key, the negated slice of the delta, provided that for every stored
value the local coordinates of its retraction relative to itself are the negated
delta. -/
theorem retract_localCoordinates_round_trip [LinearOrder Key] [Zero R] [Neg R]
    (ops : ValueOps Value R) (S : DynamicValues Key Value) (delta : VectorValues R)
    (ordering : Ordering Key) (hS : S.Ordered)
    (hcover : ∀ k ∈ S.keys, (ordering.tryAt k).isSome = true)
    (hinj : ∀ k₁ ∈ S.keys, ∀ k₂ ∈ S.keys, ∀ i,
      ordering.tryAt k₁ = some i → ordering.tryAt k₂ = some i → k₁ = k₂)
    (hdim : ∀ k v index, ptr_map.find S.values_ k = some v →
      ordering.tryAt k = some index → (delta.subscript index).length = ops.dim v)
    (hinv : ∀ k v, ptr_map.find S.values_ k = some v → ∀ d : Vector R,
      d.length = ops.dim v →
      (ops.localCoordinates_ (ops.retract_ v d) v : Except (Error Key) (Vector R))
        = .ok (d.map fun x => -x)) :
    ∃ out result, S.retract ops delta ordering = .ok out ∧
      out.localCoordinates ops S ordering = .ok result ∧
      ∀ k ∈ S.keys, ∀ index, ordering.tryAt k = some index →
        result.subscript index = (delta.subscript index).map fun x => -x := by
  obtain ⟨out, hout, hord, hkeys, hret⟩ := retract_ok ops S delta ordering hS hcover
  have hpair : ∀ k a b, ptr_map.find out.values_ k = some a →
      ptr_map.find S.values_ k = some b →
      ∃ index, ordering.tryAt k = some index ∧
        ops.typeid a = ops.typeid b ∧
        ops.localCoordinates a b = (delta.subscript index).map fun x => -x := by
    intro k a b ha hb
    obtain ⟨index, hindex, hfound⟩ := hret k b hb
    have hab : a = ops.retract_ b (delta.subscript index) := by
      rw [ha] at hfound
      exact Option.some.inj hfound
    have h := hinv k b hb (delta.subscript index) (hdim k b index hb hindex)
    rw [← hab] at h
    unfold ValueOps.localCoordinates_ at h
    by_cases ht : ops.typeid a = ops.typeid b
    · rw [if_pos ht] at h
      exact ⟨index, hindex, ht, Except.ok.inj h⟩
    · rw [if_neg ht] at h
      cases h
  obtain ⟨result, hres, hslice⟩ :=
    localCoordinates_ok ops out S ordering hord hkeys
      (fun k a b ha hb => by
        obtain ⟨_, _, ht, _⟩ := hpair k a b ha hb
        exact ht)
      (by rw [hkeys]; exact hcover) (by rw [hkeys]; exact hinj)
  refine ⟨out, result, hout, hres, ?_⟩
  intro k hk index hindex
  obtain ⟨b, hb⟩ := Option.isSome_iff_exists.1 ((ptr_map.find_isSome_iff S.values_ k).2 hk)
  obtain ⟨index', hindex', hfound⟩ := hret k b hb
  obtain ⟨index'', hindex'', _, hlc⟩ := hpair k _ b hfound hb
  have h1 : index'' = index := by
    rw [hindex] at hindex''
    exact (Option.some.inj hindex'').symm
  subst h1
  rw [hslice k _ b index'' hfound hb hindex, hlc]

end DynamicValues

namespace DynamicValues

theorem retract_localCoordinates_round_trip_witness :
    ∃ out result, exStore.retract exOps exDelta exOrdering = .ok out ∧
      out.localCoordinates exOps exStore exOrdering = .ok result ∧
      ∀ k ∈ exStore.keys, ∀ index, exOrdering.tryAt k = some index →
        result.subscript index = (exDelta.subscript index).map fun x => -x :=
  retract_localCoordinates_round_trip exOps exStore exDelta exOrdering (by decide)
    (by decide)
    (fun k₁ h₁ k₂ h₂ i e₁ e₂ => by
      simp only [exStore, keys, List.map_cons, List.map_nil, List.mem_cons,
        List.mem_singleton, List.not_mem_nil, or_false] at h₁ h₂
      rcases h₁ with rfl | rfl <;> rcases h₂ with rfl | rfl <;>
        first
          | rfl
          | (simp only [exOrdering, Ordering.tryAt, ptr_map.find] at e₁ e₂
             exact absurd (e₁.trans e₂.symm) (by decide)))
    (fun k v index hv hi => by
      simp only [exStore, ptr_map.find] at hv
      split_ifs at hv with h₁ h₃
      · subst h₁
        obtain rfl := Option.some.inj hv
        simp [exOrdering, Ordering.tryAt, ptr_map.find] at hi
        subst hi
        rfl
      · subst h₃
        obtain rfl := Option.some.inj hv
        simp [exOrdering, Ordering.tryAt, ptr_map.find] at hi
        subst hi
        rfl)
    (fun k v hv d hd => by
      simp only [exStore, ptr_map.find] at hv
      split_ifs at hv with h₁ h₃
      · obtain rfl := Option.some.inj hv
        match d, hd with
        | [x], _ =>
          simp [ValueOps.localCoordinates_, exOps, exScalar, ExValue.add, ExValue.sub]
      · obtain rfl := Option.some.inj hv
        match d, hd with
        | [x, y], _ =>
          simp [ValueOps.localCoordinates_, exOps, exPoint, ExValue.add, ExValue.sub])

end DynamicValues

/-! ## equals -/

namespace DynamicValues

variable {Key Value R : Type}

theorem equalsLoop_spec [DecidableEq Key] (ops : ValueOps Value R) (tol : R)
    (l₁ : List (Key × Value)) :
    ∀ l₂ : List (Key × Value), l₁.length = l₂.length → (l₁.map Prod.fst).Nodup →
      (∃ b, equalsLoop ops tol l₁ l₂ = .ok b) ∧
        (equalsLoop ops tol l₁ l₂ = .ok true ↔
          l₁.map Prod.fst = l₂.map Prod.fst ∧
            ∀ k a b, ptr_map.find l₁ k = some a → ptr_map.find l₂ k = some b →
              ops.typeid a = ops.typeid b ∧ ops.equals_ a b tol = true) := by
  induction l₁ with
  | nil =>
    intro l₂ hlen _
    cases l₂ with
    | nil => simp [equalsLoop, ptr_map.find]
    | cons e rest => simp at hlen
  | cons e₁ rest₁ ih =>
    intro l₂ hlen hnodup
    cases l₂ with
    | nil => simp at hlen
    | cons e₂ rest₂ =>
      obtain ⟨k₁, v₁⟩ := e₁
      obtain ⟨k₂, v₂⟩ := e₂
      simp only [List.map_cons, List.nodup_cons] at hnodup
      obtain ⟨hnotin, hnodup⟩ := hnodup
      obtain ⟨htotal, hiff⟩ := ih rest₂ (by simpa using hlen) hnodup
      by_cases hk : k₁ = k₂
      · subst hk
        have hne : ∀ k a, ptr_map.find rest₁ k = some a → ¬ k₁ = k := by
          intro k a ha c
          exact hnotin (c ▸ (ptr_map.find_isSome_iff rest₁ k).1 (by simp [ha]))
        by_cases ht : ops.typeid v₁ = ops.typeid v₂
        · by_cases he : ops.equals_ v₁ v₂ tol = true
          · have hstep : equalsLoop ops tol ((k₁, v₁) :: rest₁) ((k₁, v₂) :: rest₂)
                = equalsLoop ops tol rest₁ rest₂ := by
              simp [equalsLoop, ht, he]
            rw [hstep]
            refine ⟨htotal, ?_⟩
            rw [hiff]
            constructor
            · rintro ⟨hkeys, hval⟩
              refine ⟨by simp [hkeys], ?_⟩
              intro k a b ha hb
              by_cases hkk : k₁ = k
              · subst hkk
                simp only [ptr_map.find, if_true, Option.some.injEq] at ha hb
                subst ha hb
                exact ⟨ht, he⟩
              · simp only [ptr_map.find, hkk, if_false] at ha hb
                exact hval k a b ha hb
            · rintro ⟨hkeys, hval⟩
              simp only [List.map_cons, List.cons.injEq, true_and] at hkeys
              refine ⟨hkeys, ?_⟩
              intro k a b ha hb
              have hkk : ¬ k₁ = k := hne k a ha
              exact hval k a b (by simp [ptr_map.find, hkk, ha])
                (by simp [ptr_map.find, hkk, hb])
          · have hstep : equalsLoop ops tol ((k₁, v₁) :: rest₁) ((k₁, v₂) :: rest₂)
                = .ok false := by
              simp [equalsLoop, ht, he]
            rw [hstep]
            refine ⟨⟨false, rfl⟩, ?_⟩
            constructor
            · intro h
              cases h
            · rintro ⟨_, hval⟩
              exact absurd (hval k₁ v₁ v₂ (by simp [ptr_map.find])
                (by simp [ptr_map.find])).2 he
        · have hstep : equalsLoop ops tol ((k₁, v₁) :: rest₁) ((k₁, v₂) :: rest₂)
              = .ok false := by
            simp [equalsLoop, ht]
          rw [hstep]
          refine ⟨⟨false, rfl⟩, ?_⟩
          constructor
          · intro h
            cases h
          · rintro ⟨_, hval⟩
            exact absurd (hval k₁ v₁ v₂ (by simp [ptr_map.find])
              (by simp [ptr_map.find])).1 ht
      · have hstep : equalsLoop ops tol ((k₁, v₁) :: rest₁) ((k₂, v₂) :: rest₂)
            = .ok false := by
          by_cases ht : ops.typeid v₁ = ops.typeid v₂ <;> simp [equalsLoop, ht, hk]
        rw [hstep]
        refine ⟨⟨false, rfl⟩, ?_⟩
        constructor
        · intro h
          cases h
        · rintro ⟨hkeys, _⟩
          simp only [List.map_cons, List.cons.injEq] at hkeys
          exact absurd hkeys.1 hk

theorem equals_spec [DecidableEq Key] (ops : ValueOps Value R)
    (A B : DynamicValues Key Value) (tol : R) (hnodup : A.keys.Nodup) :
    (∃ b, A.equals ops B tol = .ok b) ∧
      (A.equals ops B tol = .ok true ↔
        A.keys = B.keys ∧
          ∀ k a b, ptr_map.find A.values_ k = some a → ptr_map.find B.values_ k = some b →
            ops.typeid a = ops.typeid b ∧ ops.equals_ a b tol = true) := by
  by_cases hsize : A.size = B.size
  · have h := equalsLoop_spec ops tol A.values_ B.values_ hsize hnodup
    simpa [equals, hsize, keys] using h
  · refine ⟨⟨false, by simp [equals, hsize]⟩, ?_⟩
    constructor
    · intro h
      simp [equals, hsize] at h
    · rintro ⟨hkeys, _⟩
      exfalso
      apply hsize
      have h := congrArg List.length hkeys
      simpa [size, keys] using h

/-- C13. For stores `A` and `B` and a tolerance, `A.equals(B, tol)` returns a result, and
the result is `true` if and only if `A` and `B` have the same keys and, under every key,
values of the same runtime type for which `equals_` holds at that tolerance. -/
theorem equals_true_iff [LinearOrder Key] (ops : ValueOps Value R)
    (A B : DynamicValues Key Value) (tol : R) (hA : A.Ordered) (hB : B.Ordered) :
    (∃ b, A.equals ops B tol = .ok b) ∧
      (A.equals ops B tol = .ok true ↔
        (∀ k, k ∈ A.keys ↔ k ∈ B.keys) ∧
          ∀ k a b, ptr_map.find A.values_ k = some a → ptr_map.find B.values_ k = some b →
            ops.typeid a = ops.typeid b ∧ ops.equals_ a b tol = true) := by
  have hnodup : A.keys.Nodup := List.Pairwise.imp (fun h => ne_of_lt h) hA
  obtain ⟨htotal, hiff⟩ := equals_spec ops A B tol hnodup
  refine ⟨htotal, ?_⟩
  rw [hiff]
  constructor
  · rintro ⟨hkeys, hval⟩
    exact ⟨fun k => by rw [hkeys], hval⟩
  · rintro ⟨hmem, hval⟩
    exact ⟨ptr_map.keys_eq_of_mem_iff _ _ hA hB hmem, hval⟩

theorem equals_true_iff_witness :
    (∃ b, exPairA.equals exOps exPairB (4 : Int) = .ok b) ∧
      (exPairA.equals exOps exPairB (4 : Int) = .ok true ↔
        (∀ k, k ∈ exPairA.keys ↔ k ∈ exPairB.keys) ∧
          ∀ k a b, ptr_map.find exPairA.values_ k = some a →
            ptr_map.find exPairB.values_ k = some b →
            exOps.typeid a = exOps.typeid b ∧ exOps.equals_ a b 4 = true) :=
  equals_true_iff exOps exPairA exPairB 4 (by decide) (by decide)

end DynamicValues

/-! ## Sequences of inserts: keys, copy construction, bulk insert -/

namespace ptr_map

variable {Key Value : Type}

theorem mem_of_find_eq_some [DecidableEq Key] (m : List (Key × Value)) (k : Key)
    (v : Value) (h : find m k = some v) : (k, v) ∈ m := by
  induction m with
  | nil => simp [find] at h
  | cons e rest ih =>
    obtain ⟨k', v'⟩ := e
    by_cases hk : k' = k
    · subst hk
      simp only [find, if_true, Option.some.injEq] at h
      subst h
      simp
    · simp only [find, hk, if_false] at h
      exact List.mem_cons_of_mem _ (ih h)

/-- A list with an element satisfying `p` splits at the first such element. -/
theorem exists_first_split {α : Type} (p : α → Prop) (l : List α) (h : ∃ x ∈ l, p x) :
    ∃ pre x post, l = pre ++ x :: post ∧ p x ∧ ∀ y ∈ pre, ¬ p y := by
  induction l with
  | nil =>
    obtain ⟨x, hx, _⟩ := h
    simp at hx
  | cons a rest ih =>
    by_cases ha : p a
    · exact ⟨[], a, rest, rfl, ha, by simp⟩
    · obtain ⟨x, hx, hpx⟩ := h
      have hrest : ∃ x ∈ rest, p x := by
        rcases List.mem_cons.1 hx with rfl | hx'
        · exact absurd hpx ha
        · exact ⟨x, hx', hpx⟩
      obtain ⟨pre, y, post, hsplit, hy, hpre⟩ := ih hrest
      refine ⟨a :: pre, y, post, by simp [hsplit], hy, ?_⟩
      intro z hz
      rcases List.mem_cons.1 hz with rfl | hz'
      · exact ha
      · exact hpre z hz'

end ptr_map

namespace DynamicValues

variable {Key Value R : Type}

theorem insert_state [LinearOrder Key] (ops : ValueOps Value R)
    (S : DynamicValues Key Value) (k : Key) (v : Value) :
    (S.insert ops k v).state = ⟨(ptr_map.insert S.values_ k (ops.clone_ v)).1⟩ := by
  unfold insert
  by_cases h : (ptr_map.insert S.values_ k (ops.clone_ v)).2 = true <;> simp [h]

theorem insert_result_absent [LinearOrder Key] (ops : ValueOps Value R)
    (S : DynamicValues Key Value) (k : Key) (v : Value)
    (hk : ptr_map.find S.values_ k = none) : (S.insert ops k v).result = .ok () := by
  simp [insert, ptr_map.insert, hk]

theorem insert_result_present [LinearOrder Key] (ops : ValueOps Value R)
    (S : DynamicValues Key Value) (k : Key) (v : Value)
    (hk : (ptr_map.find S.values_ k).isSome = true) :
    (S.insert ops k v).result = .error (.DynamicValuesKeyAlreadyExists k) ∧
      (S.insert ops k v).state = S := by
  obtain ⟨x, hx⟩ := Option.isSome_iff_exists.1 hk
  simp [insert, ptr_map.insert, hx]

theorem insertLoop_spec [LinearOrder Key] (ops : ValueOps Value R)
    (l : List (Key × Value)) :
    ∀ S : DynamicValues Key Value, (l.map Prod.fst).Nodup →
      (∀ k ∈ l.map Prod.fst, ptr_map.find S.values_ k = none) →
      (insertLoop ops l S).result = .ok () ∧
        (S.Ordered → (insertLoop ops l S).state.Ordered) ∧
        (insertLoop ops l S).state.size = S.size + l.length ∧
        ∀ j, ptr_map.find (insertLoop ops l S).state.values_ j =
          (ptr_map.find S.values_ j).or ((ptr_map.find l j).map ops.clone_) := by
  induction l with
  | nil =>
    intro S _ _
    exact ⟨rfl, id, rfl, fun j => by simp [insertLoop, ptr_map.find]⟩
  | cons e rest ih =>
    obtain ⟨k, v⟩ := e
    intro S hnodup habsent
    simp only [List.map_cons, List.nodup_cons] at hnodup
    obtain ⟨hnotin, hnodup⟩ := hnodup
    have hk : ptr_map.find S.values_ k = none := habsent k (by simp)
    have hres := insert_result_absent ops S k v hk
    have hstate := insert_state ops S k v
    have hfind : ∀ j, ptr_map.find (S.insert ops k v).state.values_ j =
        (ptr_map.find S.values_ j).or (if k = j then some (ops.clone_ v) else none) := by
      intro j
      rw [hstate]
      exact ptr_map.find_insert S.values_ k _ j
    have hstep : insertLoop ops ((k, v) :: rest) S
        = insertLoop ops rest (S.insert ops k v).state := by
      simp [insertLoop, hres]
    have hrest : ∀ k' ∈ rest.map Prod.fst,
        ptr_map.find (S.insert ops k v).state.values_ k' = none := by
      intro k' hk'
      have hne : ¬ k = k' := fun c => hnotin (c ▸ hk')
      rw [hfind k', habsent k' (by simp only [List.map_cons, List.mem_cons]; exact Or.inr hk')]
      simp [hne]
    obtain ⟨hok, hord, hsize, hval⟩ := ih (S.insert ops k v).state hnodup hrest
    rw [hstep]
    refine ⟨hok, ?_, ?_, ?_⟩
    · intro hS
      exact hord (by rw [hstate]; exact ptr_map.insert_sorted S.values_ k _ hS)
    · rw [hsize, hstate]
      simp only [size, ptr_map.insert, hk, ptr_map.length_place, List.length_cons]
      omega
    · intro j
      rw [hval j, hfind j]
      by_cases hj : k = j
      · subst hj
        simp [ptr_map.find, hk]
      · cases ptr_map.find S.values_ j <;> simp [ptr_map.find, hj]

theorem insertLoop_append [LinearOrder Key] (ops : ValueOps Value R)
    (pre rest : List (Key × Value)) :
    ∀ S : DynamicValues Key Value, (insertLoop ops pre S).result = .ok () →
      insertLoop ops (pre ++ rest) S = insertLoop ops rest (insertLoop ops pre S).state := by
  induction pre with
  | nil =>
    intro S _
    rfl
  | cons e pre ih =>
    obtain ⟨k, v⟩ := e
    intro S hok
    cases hres : (S.insert ops k v).result with
    | error err => simp [insertLoop, hres] at hok
    | ok u =>
      simp only [insertLoop, hres, List.cons_append] at hok ⊢
      exact ih _ hok

theorem mem_keys_insertLoop [LinearOrder Key] (ops : ValueOps Value R)
    (l : List (Key × Value)) (hnodup : (l.map Prod.fst).Nodup) (j : Key) :
    j ∈ (insertLoop ops l (empty : DynamicValues Key Value)).state.keys
      ↔ j ∈ l.map Prod.fst := by
  obtain ⟨_, _, _, hval⟩ := insertLoop_spec ops l empty hnodup (fun _ _ => rfl)
  unfold keys
  rw [← ptr_map.find_isSome_iff, ← ptr_map.find_isSome_iff, hval j]
  cases ptr_map.find l j <;> simp [empty, ptr_map.find]

/-- C14 (as amended). After a sequence of insert calls with distinct keys on an empty
store, every call has succeeded and `keys()` returns exactly the inserted keys, each
once, in ascending key order; it returns them in the order of insertion exactly when
they were inserted in ascending order. -/
theorem keys_after_inserts_ascending [LinearOrder Key] (ops : ValueOps Value R)
    (calls : List (Key × Value)) (hdistinct : (calls.map Prod.fst).Nodup) :
    (insertLoop ops calls (empty : DynamicValues Key Value)).result = .ok () ∧
      ((insertLoop ops calls (empty : DynamicValues Key Value)).state.keys).Perm
        (calls.map Prod.fst) ∧
      ((insertLoop ops calls (empty : DynamicValues Key Value)).state.keys).Pairwise
        (fun a b => a < b) ∧
      ((insertLoop ops calls (empty : DynamicValues Key Value)).state.keys
          = calls.map Prod.fst ↔
        (calls.map Prod.fst).Pairwise (fun a b => a < b)) := by
  obtain ⟨hok, hord, _, _⟩ := insertLoop_spec ops calls empty hdistinct (fun _ _ => rfl)
  have hsorted : ((insertLoop ops calls (empty : DynamicValues Key Value)).state.keys).Pairwise
      (fun a b => a < b) := hord (by simp [Ordered, empty])
  refine ⟨hok, ?_, hsorted, ?_⟩
  · exact (List.perm_ext_iff_of_nodup (hsorted.imp (fun h => ne_of_lt h)) hdistinct).2
      (mem_keys_insertLoop ops calls hdistinct)
  · constructor
    · intro h
      rw [← h]
      exact hsorted
    · intro h
      exact ptr_map.keys_eq_of_mem_iff _ _ hsorted h (mem_keys_insertLoop ops calls hdistinct)

theorem keys_after_inserts_ascending_witness :
    (insertLoop exOps [(2, exScalar 1), (1, exScalar 2)]
        (empty : DynamicValues Nat ExValue)).result = .ok () ∧
      ((insertLoop exOps [(2, exScalar 1), (1, exScalar 2)]
        (empty : DynamicValues Nat ExValue)).state.keys).Pairwise (fun a b => a < b) :=
  have h := keys_after_inserts_ascending exOps [(2, exScalar 1), (1, exScalar 2)]
    (by decide)
  ⟨h.1, h.2.2.1⟩

/-- C14, as stated, fails: inserting under key 2 and then under key 1 into an empty store
succeeds both times, and `keys()` returns 1 before 2, not the order of insertion. -/
theorem keys_insertion_order_counterexample :
    ((empty : DynamicValues Nat ExValue).insert exOps 2 (exScalar 1)).result = .ok () ∧
      ((((empty : DynamicValues Nat ExValue).insert exOps 2 (exScalar 1)).state.insert
        exOps 1 (exScalar 2)).result = .ok ()) ∧
      (((empty : DynamicValues Nat ExValue).insert exOps 2 (exScalar 1)).state.insert
        exOps 1 (exScalar 2)).state.keys = [1, 2] ∧
      (((empty : DynamicValues Nat ExValue).insert exOps 2 (exScalar 1)).state.insert
        exOps 1 (exScalar 2)).state.keys ≠ [2, 1] := by
  refine ⟨rfl, rfl, by decide, by decide⟩

end DynamicValues

namespace DynamicValues

variable {Key Value R : Type}

/-- C15. The copy constructed from a store is built without failure, has exactly the
keys of the store, holds under each key the clone of the store's value, and `equals`
the store at tolerance 0 (a clone having the runtime type of its original and being
equal to it).  Every object of the copy is a fresh clone and every mutating member
function acts on the state of its receiver alone, so a later insert, update or erase on
one of the two containers yields a new state of that container only. -/
theorem copy_holds_clones [LinearOrder Key] [Zero R] (ops : ValueOps Value R)
    (S : DynamicValues Key Value) (hS : S.Ordered)
    (hclone : ∀ k v, ptr_map.find S.values_ k = some v →
      ops.typeid (ops.clone_ v) = ops.typeid v ∧ ops.equals_ (ops.clone_ v) v 0 = true) :
    (copyConstruct ops S).result = .ok () ∧
      (copyConstruct ops S).state.keys = S.keys ∧
      (∀ k v, ptr_map.find S.values_ k = some v →
        ptr_map.find (copyConstruct ops S).state.values_ k = some (ops.clone_ v)) ∧
      (copyConstruct ops S).state.equals ops S 0 = .ok true := by
  have hnodup : (S.values_.map Prod.fst).Nodup := List.Pairwise.imp (fun h => ne_of_lt h) hS
  obtain ⟨hok, hord, _, hval⟩ := insertLoop_spec ops S.values_ empty hnodup (fun _ _ => rfl)
  have hsorted : (insertLoop ops S.values_ (empty : DynamicValues Key Value)).state.Ordered :=
    hord (by simp [Ordered, empty])
  have hkeys : (copyConstruct ops S).state.keys = S.keys :=
    ptr_map.keys_eq_of_mem_iff _ _ hsorted hS (mem_keys_insertLoop ops S.values_ hnodup)
  have hfind : ∀ k v, ptr_map.find S.values_ k = some v →
      ptr_map.find (copyConstruct ops S).state.values_ k = some (ops.clone_ v) := by
    intro k v hv
    simp only [copyConstruct, insertValues]
    rw [hval k]
    simp [empty, ptr_map.find, hv]
  refine ⟨hok, hkeys, hfind, ?_⟩
  have hcopy : (copyConstruct ops S).state.keys.Nodup := by
    rw [hkeys]
    exact hnodup
  rw [(equals_spec ops (copyConstruct ops S).state S 0 hcopy).2]
  refine ⟨hkeys, ?_⟩
  intro k a b ha hb
  have hab : a = ops.clone_ b := by
    rw [hfind k b hb] at ha
    exact (Option.some.inj ha).symm
  rw [hab]
  exact hclone k b hb

theorem copy_holds_clones_witness :
    (copyConstruct exOps exStore).result = .ok () ∧
      (copyConstruct exOps exStore).state.keys = exStore.keys ∧
      (copyConstruct exOps exStore).state.equals exOps exStore (0 : Int) = .ok true :=
  have h := copy_holds_clones exOps exStore (by decide)
    (fun k v hv => by
      simp only [exStore, ptr_map.find] at hv
      split_ifs at hv with h₁ h₃
      · obtain rfl := Option.some.inj hv
        exact ⟨rfl, by decide⟩
      · obtain rfl := Option.some.inj hv
        exact ⟨rfl, by decide⟩)
  ⟨h.1, h.2.1, h.2.2.2⟩

/-- C16 (as amended). When the store `V` has unique keys and shares a key with `S`,
`S.insert(V)` fails with `DynamicValuesKeyAlreadyExists` for the first key of `V`, in
iteration order, that is present in `S`.  The keys of `V` before that key have been
added to `S` with clones of the values of `V`, and nothing else has changed: `S` is in
its pre-call state exactly when the first key of `V` is present in `S`. -/
theorem insertValues_fails_at_first_shared_key [LinearOrder Key] (ops : ValueOps Value R)
    (S V : DynamicValues Key Value) (hV : V.Ordered)
    (hshare : ∃ k, S.exists_ k = true ∧ V.exists_ k = true) :
    ∃ pre k v post, V.values_ = pre ++ (k, v) :: post ∧
      (∀ j ∈ pre.map Prod.fst, S.exists_ j = false) ∧ S.exists_ k = true ∧
      (S.insertValues ops V).result = .error (.DynamicValuesKeyAlreadyExists k) ∧
      (∀ j, ptr_map.find (S.insertValues ops V).state.values_ j =
        (ptr_map.find S.values_ j).or ((ptr_map.find pre j).map ops.clone_)) ∧
      (S.insertValues ops V).state.size = S.size + pre.length ∧
      ((S.insertValues ops V).state = S ↔ pre = []) := by
  obtain ⟨k₀, hS₀, hV₀⟩ := hshare
  obtain ⟨v₀, hv₀⟩ := Option.isSome_iff_exists.1 hV₀
  have hmem := ptr_map.mem_of_find_eq_some V.values_ k₀ v₀ hv₀
  obtain ⟨pre, ⟨k, v⟩, post, hsplit, hk, hpre⟩ :=
    ptr_map.exists_first_split (fun e : Key × Value => S.exists_ e.1 = true) V.values_
      ⟨(k₀, v₀), hmem, hS₀⟩
  have hnodup : (V.values_.map Prod.fst).Nodup := List.Pairwise.imp (fun h => ne_of_lt h) hV
  rw [hsplit, List.map_append, List.nodup_append] at hnodup
  have habsent : ∀ j ∈ pre.map Prod.fst, ptr_map.find S.values_ j = none := by
    intro j hj
    obtain ⟨e, he, rfl⟩ := List.mem_map.1 hj
    have := hpre e he
    simpa [exists_] using this
  obtain ⟨hok, _, hsize, hval⟩ := insertLoop_spec ops pre S hnodup.1 habsent
  have hloop : S.insertValues ops V
      = insertLoop ops ((k, v) :: post) (insertLoop ops pre S).state := by
    simp only [insertValues, hsplit]
    exact insertLoop_append ops pre _ S hok
  have hpresent : (ptr_map.find (insertLoop ops pre S).state.values_ k).isSome = true := by
    rw [hval k]
    have hk' : (ptr_map.find S.values_ k).isSome = true := hk
    obtain ⟨x, hx⟩ := Option.isSome_iff_exists.1 hk'
    simp [hx]
  obtain ⟨hres, hstate⟩ := insert_result_present ops (insertLoop ops pre S).state k v hpresent
  have hfinal : S.insertValues ops V
      = ⟨.error (.DynamicValuesKeyAlreadyExists k), (insertLoop ops pre S).state⟩ := by
    rw [hloop]
    simp [insertLoop, hres, hstate]
  refine ⟨pre, k, v, post, hsplit, ?_, hk, by rw [hfinal], ?_, ?_, ?_⟩
  · intro j hj
    simp [exists_, habsent j hj]
  · intro j
    rw [hfinal]
    exact hval j
  · rw [hfinal]
    exact hsize
  · rw [hfinal]
    constructor
    · intro h
      have hlen : S.size + pre.length = S.size := by
        rw [← hsize]
        exact congrArg size h
      exact List.eq_nil_of_length_eq_zero (by omega)
    · intro h
      subst h
      rfl

theorem insertValues_fails_at_first_shared_key_witness :
    ∃ pre k v post, exNewAndShared.values_ = pre ++ (k, v) :: post ∧
      (∀ j ∈ pre.map Prod.fst, exPointStore3.exists_ j = false) ∧
      exPointStore3.exists_ k = true ∧
      (exPointStore3.insertValues exOps exNewAndShared).result
        = .error (.DynamicValuesKeyAlreadyExists k) ∧
      (∀ j, ptr_map.find (exPointStore3.insertValues exOps exNewAndShared).state.values_ j =
        (ptr_map.find exPointStore3.values_ j).or ((ptr_map.find pre j).map exOps.clone_)) ∧
      (exPointStore3.insertValues exOps exNewAndShared).state.size
        = exPointStore3.size + pre.length ∧
      ((exPointStore3.insertValues exOps exNewAndShared).state = exPointStore3 ↔ pre = []) :=
  insertValues_fails_at_first_shared_key exOps exPointStore3 exNewAndShared (by decide)
    ⟨3, by decide, by decide⟩

/-- C16, as stated, fails: `exNewAndShared` shares key 3 with `exPointStore3`, the bulk
insert fails with `DynamicValuesKeyAlreadyExists`, and the store is not in its pre-call
state: key 1 of `exNewAndShared`, which was absent, has been added before the failure. -/
theorem insertValues_atomicity_counterexample :
    exPointStore3.exists_ 3 = true ∧ exNewAndShared.exists_ 3 = true ∧
      exPointStore3.exists_ 1 = false ∧
      (exPointStore3.insertValues exOps exNewAndShared).result
        = .error (.DynamicValuesKeyAlreadyExists 3) ∧
      (exPointStore3.insertValues exOps exNewAndShared).state.exists_ 1 = true ∧
      (exPointStore3.insertValues exOps exNewAndShared).state ≠ exPointStore3 := by
  refine ⟨by decide, by decide, by decide, rfl, by decide, by decide⟩

end DynamicValues

/-! ## Bulk update -/

namespace DynamicValues

variable {Key Value R : Type}

theorem update_good [DecidableEq Key] (ops : ValueOps Value R)
    (S : DynamicValues Key Value) (k : Key) (v s : Value)
    (hs : ptr_map.find S.values_ k = some s) (ht : ops.typeid s = ops.typeid v) :
    (S.update ops k v).result = .ok () ∧
      (S.update ops k v).state = ⟨ptr_map.replace S.values_ k (ops.clone_ v)⟩ := by
  simp [update, hs, ht]

theorem updateLoop_spec [DecidableEq Key] (ops : ValueOps Value R)
    (l : List (Key × Value)) :
    ∀ S : DynamicValues Key Value, (l.map Prod.fst).Nodup →
      (∀ e ∈ l, ∃ s, ptr_map.find S.values_ e.1 = some s ∧ ops.typeid s = ops.typeid e.2) →
      (updateLoop ops l S).result = .ok () ∧
        (updateLoop ops l S).state.keys = S.keys ∧
        ∀ j, ptr_map.find (updateLoop ops l S).state.values_ j =
          ((ptr_map.find l j).map ops.clone_).or (ptr_map.find S.values_ j) := by
  induction l with
  | nil =>
    intro S _ _
    exact ⟨rfl, rfl, fun j => by simp [updateLoop, ptr_map.find]⟩
  | cons e rest ih =>
    obtain ⟨k, v⟩ := e
    intro S hnodup hgood
    simp only [List.map_cons, List.nodup_cons] at hnodup
    obtain ⟨hnotin, hnodup⟩ := hnodup
    obtain ⟨s, hs, ht⟩ := hgood (k, v) (by simp)
    obtain ⟨hres, hstate⟩ := update_good ops S k v s hs ht
    have hstep : updateLoop ops ((k, v) :: rest) S
        = updateLoop ops rest (S.update ops k v).state := by
      simp [updateLoop, hres]
    have hne : ∀ e ∈ rest, e.1 ≠ k := by
      intro e he c
      exact hnotin (c ▸ List.mem_map_of_mem Prod.fst he)
    have hrest : ∀ e ∈ rest, ∃ s', ptr_map.find (S.update ops k v).state.values_ e.1 = some s' ∧
        ops.typeid s' = ops.typeid e.2 := by
      intro e he
      obtain ⟨s', hs', ht'⟩ := hgood e (List.mem_cons_of_mem _ he)
      refine ⟨s', ?_, ht'⟩
      rw [hstate]
      simp only []
      rw [ptr_map.find_replace_ne S.values_ k _ e.1 (hne e he)]
      exact hs'
    obtain ⟨hok, hkeys, hval⟩ := ih (S.update ops k v).state hnodup hrest
    rw [hstep]
    refine ⟨hok, ?_, ?_⟩
    · rw [hkeys, hstate]
      simp [keys, ptr_map.keys_replace]
    · intro j
      rw [hval j, hstate]
      simp only []
      by_cases hj : k = j
      · subst hj
        have hnone : ptr_map.find rest k = none := (ptr_map.find_eq_none_iff rest k).2 hnotin
        rw [hnone, ptr_map.find_replace_self S.values_ k _ (by simp [hs])]
        simp [ptr_map.find]
      · rw [ptr_map.find_replace_ne S.values_ k _ j (fun c => hj c.symm)]
        simp [ptr_map.find, hj]

theorem updateLoop_append [DecidableEq Key] (ops : ValueOps Value R)
    (pre rest : List (Key × Value)) :
    ∀ S : DynamicValues Key Value, (updateLoop ops pre S).result = .ok () →
      updateLoop ops (pre ++ rest) S = updateLoop ops rest (updateLoop ops pre S).state := by
  induction pre with
  | nil =>
    intro S _
    rfl
  | cons e pre ih =>
    obtain ⟨k, v⟩ := e
    intro S hok
    cases hres : (S.update ops k v).result with
    | error err => simp [updateLoop, hres] at hok
    | ok u =>
      simp only [updateLoop, hres, List.cons_append] at hok ⊢
      exact ih _ hok

/-- C17 (as amended). When the store `V` has unique keys and holds a key that is absent
from `S`, or present with a value of another runtime type, `S.update(V)` fails at the
first such key of `V`, in iteration order: with `DynamicValuesKeyDoesNotExist` when the
key is absent, with `DynamicValuesIncorrectType` when the type differs.  The keys of `S`
are unchanged; the values of `S` under the keys of `V` before that key have been replaced
by clones of the values of `V`, and every other value is the one `S` held; when the
first key of `V` is the failing one, `S` is in its pre-call state. -/
theorem updateValues_fails_at_first_bad_key [LinearOrder Key] (ops : ValueOps Value R)
    (S V : DynamicValues Key Value) (hV : V.Ordered)
    (hbad : ∃ k v, ptr_map.find V.values_ k = some v ∧
      (ptr_map.find S.values_ k = none ∨
        ∃ s, ptr_map.find S.values_ k = some s ∧ ops.typeid s ≠ ops.typeid v)) :
    ∃ pre k v post, V.values_ = pre ++ (k, v) :: post ∧
      (∀ e ∈ pre, ∃ s, ptr_map.find S.values_ e.1 = some s ∧
        ops.typeid s = ops.typeid e.2) ∧
      ((ptr_map.find S.values_ k = none ∧
          (S.updateValues ops V).result = .error (.DynamicValuesKeyDoesNotExist "update" k)) ∨
        ∃ s, ptr_map.find S.values_ k = some s ∧ ops.typeid s ≠ ops.typeid v ∧
          (S.updateValues ops V).result
            = .error (.DynamicValuesIncorrectType k (ops.typeid s) (ops.typeid v))) ∧
      (S.updateValues ops V).state.keys = S.keys ∧
      (∀ j, ptr_map.find (S.updateValues ops V).state.values_ j =
        ((ptr_map.find pre j).map ops.clone_).or (ptr_map.find S.values_ j)) ∧
      (pre = [] → (S.updateValues ops V).state = S) := by
  obtain ⟨k₀, v₀, hv₀, hbad₀⟩ := hbad
  have hmem := ptr_map.mem_of_find_eq_some V.values_ k₀ v₀ hv₀
  obtain ⟨pre, ⟨k, v⟩, post, hsplit, hk, hpre⟩ :=
    ptr_map.exists_first_split
      (fun e : Key × Value =>
        ¬ ∃ s, ptr_map.find S.values_ e.1 = some s ∧ ops.typeid s = ops.typeid e.2)
      V.values_
      ⟨(k₀, v₀), hmem, by
        rintro ⟨s, hs, ht⟩
        rcases hbad₀ with hnone | ⟨s', hs', ht'⟩
        · rw [hnone] at hs
          cases hs
        · rw [hs'] at hs
          exact ht' ((Option.some.inj hs) ▸ ht)⟩
  have hgood : ∀ e ∈ pre, ∃ s, ptr_map.find S.values_ e.1 = some s ∧
      ops.typeid s = ops.typeid e.2 := fun e he => not_not.1 (hpre e he)
  have hnodup : (V.values_.map Prod.fst).Nodup := List.Pairwise.imp (fun h => ne_of_lt h) hV
  rw [hsplit, List.map_append, List.nodup_append] at hnodup
  obtain ⟨hok, hkeys, hval⟩ := updateLoop_spec ops pre S hnodup.1 hgood
  have hloop : S.updateValues ops V
      = updateLoop ops ((k, v) :: post) (updateLoop ops pre S).state := by
    simp only [updateValues, hsplit]
    exact updateLoop_append ops pre _ S hok
  have hknotin : k ∉ pre.map Prod.fst := by
    intro c
    exact hnodup.2.2 c (by simp)
  have hfindk : ptr_map.find (updateLoop ops pre S).state.values_ k
      = ptr_map.find S.values_ k := by
    rw [hval k, (ptr_map.find_eq_none_iff pre k).2 hknotin]
    simp
  have hcases : (ptr_map.find S.values_ k = none ∧
      updateLoop ops ((k, v) :: post) (updateLoop ops pre S).state
        = ⟨.error (.DynamicValuesKeyDoesNotExist "update" k), (updateLoop ops pre S).state⟩) ∨
      ∃ s, ptr_map.find S.values_ k = some s ∧ ops.typeid s ≠ ops.typeid v ∧
        updateLoop ops ((k, v) :: post) (updateLoop ops pre S).state
          = ⟨.error (.DynamicValuesIncorrectType k (ops.typeid s) (ops.typeid v)),
              (updateLoop ops pre S).state⟩ := by
    cases hs : ptr_map.find S.values_ k with
    | none =>
      left
      refine ⟨rfl, ?_⟩
      rw [hs] at hfindk
      simp [updateLoop, update, hfindk]
    | some s =>
      right
      have ht : ops.typeid s ≠ ops.typeid v := fun c => hk ⟨s, hs, c⟩
      refine ⟨s, rfl, ht, ?_⟩
      rw [hs] at hfindk
      simp [updateLoop, update, hfindk, ht]
  have hstate : (S.updateValues ops V).state = (updateLoop ops pre S).state := by
    rw [hloop]
    rcases hcases with ⟨_, h⟩ | ⟨_, _, _, h⟩ <;> rw [h]
  refine ⟨pre, k, v, post, hsplit, hgood, ?_, by rw [hstate, hkeys], ?_, ?_⟩
  · rcases hcases with ⟨hnone, h⟩ | ⟨s, hs, ht, h⟩
    · exact Or.inl ⟨hnone, by rw [hloop, h]⟩
    · exact Or.inr ⟨s, hs, ht, by rw [hloop, h]⟩
  · intro j
    rw [hstate]
    exact hval j
  · intro h
    subst h
    rw [hstate]
    rfl

theorem updateValues_fails_at_first_bad_key_witness :
    ∃ pre k v post, exGoodThenAbsent.values_ = pre ++ (k, v) :: post ∧
      (∀ e ∈ pre, ∃ s, ptr_map.find exStore.values_ e.1 = some s ∧
        exOps.typeid s = exOps.typeid e.2) ∧
      ((ptr_map.find exStore.values_ k = none ∧
          (exStore.updateValues exOps exGoodThenAbsent).result
            = .error (.DynamicValuesKeyDoesNotExist "update" k)) ∨
        ∃ s, ptr_map.find exStore.values_ k = some s ∧ exOps.typeid s ≠ exOps.typeid v ∧
          (exStore.updateValues exOps exGoodThenAbsent).result
            = .error (.DynamicValuesIncorrectType k (exOps.typeid s) (exOps.typeid v))) ∧
      (exStore.updateValues exOps exGoodThenAbsent).state.keys = exStore.keys ∧
      (∀ j, ptr_map.find (exStore.updateValues exOps exGoodThenAbsent).state.values_ j =
        ((ptr_map.find pre j).map exOps.clone_).or (ptr_map.find exStore.values_ j)) ∧
      (pre = [] → (exStore.updateValues exOps exGoodThenAbsent).state = exStore) :=
  updateValues_fails_at_first_bad_key exOps exStore exGoodThenAbsent (by decide)
    ⟨2, exScalar 8, by decide, Or.inl (by decide)⟩

/-- C17, as stated, fails: `exGoodThenAbsent` holds key 2, which is absent from
`exStore`; the bulk update fails with `DynamicValuesKeyDoesNotExist`, and the store is
not in its pre-call state: the value under key 1 has been replaced before the failure. -/
theorem updateValues_atomicity_counterexample :
    exGoodThenAbsent.exists_ 2 = true ∧ exStore.exists_ 2 = false ∧
      (exStore.updateValues exOps exGoodThenAbsent).result
        = .error (.DynamicValuesKeyDoesNotExist "update" 2) ∧
      ptr_map.find exStore.values_ 1 = some (exScalar 5) ∧
      ptr_map.find (exStore.updateValues exOps exGoodThenAbsent).state.values_ 1
        = some (exScalar 9) ∧
      (exStore.updateValues exOps exGoodThenAbsent).state ≠ exStore := by
  refine ⟨by decide, by decide, rfl, by decide, by decide, by decide⟩

end DynamicValues

/-! ## retract with an ordering that misses a key -/

namespace DynamicValues

variable {Key Value R : Type}

theorem retractLoop_fails [LinearOrder Key] (ops : ValueOps Value R)
    (delta : VectorValues R) (ordering : Ordering Key) (l : List (Key × Value)) :
    ∀ acc : DynamicValues Key Value,
      (∃ k ∈ l.map Prod.fst, ordering.tryAt k = none) →
      ∃ k ∈ l.map Prod.fst, ordering.tryAt k = none ∧
        retractLoop ops delta ordering l acc = .error (.orderingKeyMissing k) := by
  induction l with
  | nil =>
    intro acc h
    obtain ⟨k, hk, _⟩ := h
    simp at hk
  | cons e rest ih =>
    obtain ⟨k₁, v₁⟩ := e
    intro acc h
    cases hfirst : ordering.tryAt k₁ with
    | none =>
      exact ⟨k₁, by simp, hfirst, by simp [retractLoop, Ordering.subscript, hfirst]⟩
    | some index =>
      have hrest : ∃ k ∈ rest.map Prod.fst, ordering.tryAt k = none := by
        obtain ⟨k, hk, hnone⟩ := h
        simp only [List.map_cons, List.mem_cons] at hk
        rcases hk with rfl | hk
        · rw [hfirst] at hnone
          cases hnone
        · exact ⟨k, hk, hnone⟩
      obtain ⟨k, hk, hnone, hloop⟩ :=
        ih ⟨(ptr_map.insert acc.values_ k₁ (ops.retract_ v₁ (delta.subscript index))).1⟩ hrest
      refine ⟨k, by simp only [List.map_cons, List.mem_cons]; exact Or.inr hk, hnone, ?_⟩
      simp only [retractLoop, Ordering.subscript, hfirst]
      exact hloop

/-- C18. When the ordering has no index for some key present in the store, `retract`
returns an error rather than a store, whatever the delta: the error names a key of the
store for which the ordering has no index.  The receiver is an argument of a pure
function (the member function is `const`), so it is the same store afterwards. -/
theorem retract_fails_on_missing_index [LinearOrder Key] (ops : ValueOps Value R)
    (S : DynamicValues Key Value) (delta : VectorValues R) (ordering : Ordering Key)
    (hmissing : ∃ k ∈ S.keys, ordering.tryAt k = none) :
    ∃ k ∈ S.keys, ordering.tryAt k = none ∧
      S.retract ops delta ordering = .error (.orderingKeyMissing k) :=
  retractLoop_fails ops delta ordering S.values_ empty hmissing

theorem retract_fails_on_missing_index_witness :
    ∃ k ∈ exStore.keys, exOrderingPart.tryAt k = none ∧
      exStore.retract exOps exDelta exOrderingPart = .error (.orderingKeyMissing k) :=
  retract_fails_on_missing_index exOps exStore exDelta exOrderingPart
    ⟨3, by decide, by decide⟩

end DynamicValues

/-! ## The optimizer at construction -/

/-- C19. The parameters returned by `ensureHasOrdering` always carry an ordering.  When
the given parameters carry one, the result is the given parameters and
`graph.orderingCOLAMD` is not called; when they carry none, the ordering of the result is
the one returned by `graph.orderingCOLAMD(values)`, called once, and every other member
is the given one. -/
theorem ensureHasOrdering_carries_ordering {Key Value Base : Type}
    (params : LevenbergMarquardtParams Key Base) (graph : NonlinearFactorGraph Key Value)
    (values : DynamicValues Key Value) :
    (ensureHasOrdering params graph values).params.ordering.isSome = true ∧
      (params.ordering.isSome = true →
        (ensureHasOrdering params graph values).params = params ∧
          (ensureHasOrdering params graph values).orderingCalls = 0) ∧
      (params.ordering = none →
        (ensureHasOrdering params graph values).params.ordering
            = some (graph.orderingCOLAMD values) ∧
          (ensureHasOrdering params graph values).orderingCalls = 1 ∧
          (ensureHasOrdering params graph values).params.base = params.base ∧
          (ensureHasOrdering params graph values).params.lambdaInitial
            = params.lambdaInitial ∧
          (ensureHasOrdering params graph values).params.lambdaFactor
            = params.lambdaFactor ∧
          (ensureHasOrdering params graph values).params.lambdaUpperBound
            = params.lambdaUpperBound ∧
          (ensureHasOrdering params graph values).params.lmVerbosity
            = params.lmVerbosity) := by
  unfold ensureHasOrdering
  cases h : params.ordering with
  | none => simp
  | some ordering => simp [h]

theorem ensureHasOrdering_carries_ordering_witness :
    ((ensureHasOrdering (LevenbergMarquardtParams.construct ()) exGraph exStore).params.ordering
        = some (exGraph.orderingCOLAMD exStore) ∧
      (ensureHasOrdering (LevenbergMarquardtParams.construct ()) exGraph
        exStore).orderingCalls = 1) ∧
      (ensureHasOrdering
          { (LevenbergMarquardtParams.construct () : LevenbergMarquardtParams Nat Unit) with
            ordering := some exOrdering1 } exGraph exStore).orderingCalls = 0 :=
  ⟨⟨((ensureHasOrdering_carries_ordering (LevenbergMarquardtParams.construct ()) exGraph
        exStore).2.2 rfl).1,
      ((ensureHasOrdering_carries_ordering (LevenbergMarquardtParams.construct ()) exGraph
        exStore).2.2 rfl).2.1⟩,
    ((ensureHasOrdering_carries_ordering
      { (LevenbergMarquardtParams.construct () : LevenbergMarquardtParams Nat Unit) with
        ordering := some exOrdering1 } exGraph exStore).2.1 rfl).2⟩

/-- C20. Immediately after construction from a graph, initial values and parameters,
`lambda()` is `params.lambdaInitial` and the iteration counter is 0.  With
default-constructed parameters, and with the constructor that takes an ordering,
`lambda()` is 1e-5, the factor is 10 and the upper bound is 1e5, so the initial damping
is positive and below its upper bound, and the iteration counter is 0. -/
theorem initial_optimizer_state {Key Value R Base : Type} [DecidableEq Key]
    (ops : ValueOps Value R) (graph : NonlinearFactorGraph Key Value)
    (initialValues : DynamicValues Key Value) (params : LevenbergMarquardtParams Key Base)
    (base : Base) (ordering : Ordering Key) :
    ((LevenbergMarquardtOptimizer.construct ops graph initialValues params).lambda
          = params.lambdaInitial ∧
        (LevenbergMarquardtOptimizer.construct ops graph initialValues
          params).state_.iterations = 0) ∧
      ((LevenbergMarquardtOptimizer.construct ops graph initialValues
            (LevenbergMarquardtParams.construct base)).lambda = 1 / 100000 ∧
        (LevenbergMarquardtOptimizer.construct ops graph initialValues
            (LevenbergMarquardtParams.construct base)).params_.lambdaFactor = 10 ∧
        (LevenbergMarquardtOptimizer.construct ops graph initialValues
            (LevenbergMarquardtParams.construct base)).params_.lambdaUpperBound = 100000 ∧
        0 < (LevenbergMarquardtOptimizer.construct ops graph initialValues
            (LevenbergMarquardtParams.construct base)).lambda ∧
        (LevenbergMarquardtOptimizer.construct ops graph initialValues
            (LevenbergMarquardtParams.construct base)).lambda
          < (LevenbergMarquardtOptimizer.construct ops graph initialValues
            (LevenbergMarquardtParams.construct base)).params_.lambdaUpperBound) ∧
      ((LevenbergMarquardtOptimizer.constructWithOrdering ops base graph initialValues
            ordering).lambda = 1 / 100000 ∧
        (LevenbergMarquardtOptimizer.constructWithOrdering ops base graph initialValues
            ordering).params_.lambdaFactor = 10 ∧
        (LevenbergMarquardtOptimizer.constructWithOrdering ops base graph initialValues
            ordering).params_.lambdaUpperBound = 100000 ∧
        (LevenbergMarquardtOptimizer.constructWithOrdering ops base graph initialValues
            ordering).state_.iterations = 0 ∧
        0 < (LevenbergMarquardtOptimizer.constructWithOrdering ops base graph initialValues
            ordering).lambda ∧
        (LevenbergMarquardtOptimizer.constructWithOrdering ops base graph initialValues
            ordering).lambda
          < (LevenbergMarquardtOptimizer.constructWithOrdering ops base graph initialValues
            ordering).params_.lambdaUpperBound) := by
  have hkeep : (ensureHasOrdering params graph initialValues).params.lambdaInitial
      = params.lambdaInitial := by
    unfold ensureHasOrdering
    cases params.ordering <;> rfl
  refine ⟨⟨?_, rfl⟩, ⟨?_, ?_, ?_, ?_, ?_⟩, ⟨?_, ?_, ?_, rfl, ?_, ?_⟩⟩
  · simpa [LevenbergMarquardtOptimizer.lambda, LevenbergMarquardtOptimizer.construct,
      LevenbergMarquardtState.construct] using hkeep
  all_goals
    simp only [LevenbergMarquardtOptimizer.lambda, LevenbergMarquardtOptimizer.construct,
      LevenbergMarquardtOptimizer.constructWithOrdering, LevenbergMarquardtState.construct,
      LevenbergMarquardtParams.construct, ensureHasOrdering]
    try norm_num



/-! ## Safety of the paired walk -/

namespace DynamicValues

variable {Key Value R : Type}

theorem equalsLoop_in_bounds [DecidableEq Key] (ops : ValueOps Value R) (tol : R)
    (l₁ : List (Key × Value)) :
    ∀ l₂ : List (Key × Value), l₁.length ≤ l₂.length →
      equalsLoop ops tol l₁ l₂ ≠ .error .pastTheEnd := by
  induction l₁ with
  | nil =>
    intro l₂ _ h
    simp [equalsLoop] at h
  | cons e₁ rest₁ ih =>
    intro l₂ hlen
    cases l₂ with
    | nil => simp at hlen
    | cons e₂ rest₂ =>
      obtain ⟨k₁, v₁⟩ := e₁
      obtain ⟨k₂, v₂⟩ := e₂
      have hrest := ih rest₂ (by simpa using hlen)
      unfold equalsLoop
      split_ifs
      · intro h
        cases h
      · intro h
        cases h
      · intro h
        cases h
      · exact hrest

theorem localCoordinatesLoop_in_bounds [DecidableEq Key] (ops : ValueOps Value R)
    (ordering : Ordering Key) (l₁ : List (Key × Value)) :
    ∀ (l₂ : List (Key × Value)) (result : VectorValues R), l₁.length ≤ l₂.length →
      (localCoordinatesLoop ops ordering l₁ l₂ result).result ≠ .error .pastTheEnd := by
  induction l₁ with
  | nil =>
    intro l₂ result _ h
    simp [localCoordinatesLoop] at h
  | cons e₁ rest₁ ih =>
    intro l₂ result hlen
    cases l₂ with
    | nil => simp at hlen
    | cons e₂ rest₂ =>
      obtain ⟨k₁, v₁⟩ := e₁
      obtain ⟨k₂, v₂⟩ := e₂
      by_cases hk : k₁ = k₂
      · subst hk
        cases hsub : ordering.tryAt k₁ with
        | none => simp [localCoordinatesLoop, Ordering.subscript, hsub]
        | some index =>
          by_cases ht : ops.typeid v₁ = ops.typeid v₂
          · have hstep : localCoordinatesLoop ops ordering ((k₁, v₁) :: rest₁)
                ((k₁, v₂) :: rest₂) result
                = localCoordinatesLoop ops ordering rest₁ rest₂
                    (result.insert index (ops.localCoordinates v₁ v₂)) := by
              simp [localCoordinatesLoop, Ordering.subscript, hsub,
                ValueOps.localCoordinates_, ht]
            rw [hstep]
            exact ih rest₂ _ (by simpa using hlen)
          · simp [localCoordinatesLoop, Ordering.subscript, hsub,
              ValueOps.localCoordinates_, ht]
      · simp [localCoordinatesLoop, hk]

/-- C23. Safety of the paired walk.  The loops of `equals` and of `localCoordinates` are
bounded by the receiver's end only: entered with a receiver that still has an entry and
another store at its end, they read past that end.  The member functions never do so,
for any pair of stores: a size difference is detected first and answered with `false`,
respectively with `DynamicValuesMismatched`, and with equal sizes the walk ends before or
together with the other store. -/
theorem paired_walk_never_reads_past_the_end [DecidableEq Key] [Zero R]
    (ops : ValueOps Value R) (A B : DynamicValues Key Value) (tol : R)
    (ordering : Ordering Key) (result : VectorValues R) :
    (∀ (e : Key × Value) (rest : List (Key × Value)),
        equalsLoop ops tol (e :: rest) [] = .error .pastTheEnd ∧
          (localCoordinatesLoop ops ordering (e :: rest) [] result).result
            = .error .pastTheEnd) ∧
      (A.size ≠ B.size → A.equals ops B tol = .ok false) ∧
      (A.size ≠ B.size →
        (A.localCoordinatesInto ops B ordering result).result
          = .error .DynamicValuesMismatched) ∧
      A.equals ops B tol ≠ .error .pastTheEnd ∧
      (A.localCoordinatesInto ops B ordering result).result ≠ .error .pastTheEnd ∧
      A.localCoordinates ops B ordering ≠ .error .pastTheEnd := by
  have hinto : ∀ r : VectorValues R,
      (A.localCoordinatesInto ops B ordering r).result ≠ .error .pastTheEnd := by
    intro r
    by_cases hsize : A.size = B.size
    · simp only [localCoordinatesInto, hsize, ne_eq, not_true_eq_false, if_false]
      exact localCoordinatesLoop_in_bounds ops ordering A.values_ B.values_ r
        (le_of_eq hsize)
    · simp [localCoordinatesInto, hsize]
  refine ⟨?_, ?_, ?_, ?_, hinto result, ?_⟩
  · intro e rest
    exact ⟨by simp [equalsLoop], by simp [localCoordinatesLoop]⟩
  · intro hsize
    simp [equals, hsize]
  · intro hsize
    simp [localCoordinatesInto, hsize]
  · by_cases hsize : A.size = B.size
    · simp only [equals, hsize, ne_eq, not_true_eq_false, if_false]
      exact equalsLoop_in_bounds ops tol A.values_ B.values_ (le_of_eq hsize)
    · simp [equals, hsize]
  · have h := hinto (VectorValues.ofDims (A.dims ops ordering))
    intro c
    unfold localCoordinates at c
    cases hres : (A.localCoordinatesInto ops B ordering
        (VectorValues.ofDims (A.dims ops ordering))).result with
    | error err =>
      simp only [hres] at c
      rw [hres] at h
      exact h (by rw [Except.error.inj c])
    | ok u =>
      simp only [hres] at c
      cases c

theorem paired_walk_never_reads_past_the_end_witness :
    exStore.equals exOps exScalarStore (0 : Int) = .ok false ∧
      (exStore.localCoordinatesInto exOps exScalarStore exOrdering exDelta).result
        = .error .DynamicValuesMismatched :=
  have h := paired_walk_never_reads_past_the_end exOps exStore exScalarStore (0 : Int)
    exOrdering exDelta
  ⟨h.2.1 (by decide), h.2.2.1 (by decide)⟩

end DynamicValues

/-! ## orderingArbitrary -/

namespace ptr_map

variable {Key Value : Type}

theorem find_append [DecidableEq Key] (a b : List (Key × Value)) (j : Key) :
    find (a ++ b) j = (find a j).or (find b j) := by
  induction a with
  | nil => simp [find]
  | cons e rest ih =>
    obtain ⟨k, v⟩ := e
    by_cases hk : k = j
    · simp [find, hk]
    · simp [find, hk, ih]

theorem keys_zip_range' (ks : List Key) :
    ∀ n : Nat, (ks.zip (List.range' n ks.length)).map Prod.fst = ks := by
  induction ks with
  | nil =>
    intro n
    rfl
  | cons k rest ih =>
    intro n
    simp [List.range'_succ, ih (n + 1)]

theorem find_zip_range' [DecidableEq Key] (ks : List Key) :
    ∀ (n i : Nat) (k : Key), ks.Nodup → ks[i]? = some k →
      find (ks.zip (List.range' n ks.length)) k = some (n + i) := by
  induction ks with
  | nil =>
    intro n i k _ h
    simp at h
  | cons k₀ rest ih =>
    intro n i k hnodup h
    simp only [List.nodup_cons] at hnodup
    cases i with
    | zero =>
      simp only [List.getElem?_cons_zero, Option.some.injEq] at h
      subst h
      simp [List.range'_succ, find]
    | succ i =>
      simp only [List.getElem?_cons_succ] at h
      have hmem : k ∈ rest := List.getElem?_mem h
      have hne : ¬ k₀ = k := fun c => hnodup.1 (c ▸ hmem)
      have hrec := ih (n + 1) i k hnodup.2 h
      have hstep : find ((k₀ :: rest).zip (List.range' n (k₀ :: rest).length)) k
          = find (rest.zip (List.range' (n + 1) rest.length)) k := by
        simp only [List.length_cons, List.range'_succ, List.zip_cons_cons, find, hne,
          if_false]
        rfl
      rw [hstep, hrec]
      congr 1
      omega

end ptr_map

namespace DynamicValues

variable {Key Value R : Type}

theorem find_zip [DecidableEq Key] {β : Type} (ks : List Key) :
    ∀ (rs : List β) (i : Nat) (k : Key) (r : β), ks.Nodup → ks[i]? = some k →
      rs[i]? = some r → ptr_map.find (ks.zip rs) k = some r := by
  induction ks with
  | nil =>
    intro rs i k r _ h
    simp at h
  | cons k₀ rest ih =>
    intro rs i k r hnodup hk hr
    simp only [List.nodup_cons] at hnodup
    cases rs with
    | nil => simp at hr
    | cons r₀ rs' =>
      cases i with
      | zero =>
        simp only [List.getElem?_cons_zero, Option.some.injEq] at hk hr
        subst hk hr
        simp [ptr_map.find]
      | succ i =>
        simp only [List.getElem?_cons_succ] at hk hr
        have hmem : k ∈ rest := List.getElem?_mem hk
        have hne : ¬ k₀ = k := fun c => hnodup.1 (c ▸ hmem)
        have hstep : ptr_map.find ((k₀ :: rest).zip (r₀ :: rs')) k
            = ptr_map.find (rest.zip rs') k := by
          simp only [List.zip_cons_cons, ptr_map.find, hne, if_false]
          rfl
        rw [hstep]
        exact ih rs' i k r hnodup.2 hk hr

theorem orderingArbitraryLoop_spec [DecidableEq Key] (l : List (Key × Value)) :
    ∀ (acc : Ordering Key) (n : Nat), n < 2 ^ 64 → (l.map Prod.fst).Nodup →
      (∀ k ∈ l.map Prod.fst, ptr_map.find acc.order_ k = none) →
      orderingArbitraryLoop l acc n
        = ⟨acc.order_ ++
            (l.map Prod.fst).zip ((List.range l.length).map fun i => (n + i) % 2 ^ 64)⟩ := by
  induction l with
  | nil =>
    intro acc n _ _ _
    simp [orderingArbitraryLoop]
  | cons e rest ih =>
    obtain ⟨k, v⟩ := e
    intro acc n hn hnodup habsent
    simp only [List.map_cons, List.nodup_cons] at hnodup
    have hk : ptr_map.find acc.order_ k = none := habsent k (by simp)
    have hins : acc.insert k n = ⟨acc.order_ ++ [(k, n)]⟩ := by
      simp [Ordering.insert, Ordering.tryAt, hk]
    have hrest : ∀ k' ∈ rest.map Prod.fst,
        ptr_map.find (acc.insert k n).order_ k' = none := by
      intro k' hk'
      have hne : ¬ k = k' := fun c => hnodup.1 (c ▸ hk')
      rw [hins]
      simp only []
      rw [ptr_map.find_append,
        habsent k' (by simp only [List.map_cons, List.mem_cons]; exact Or.inr hk')]
      simp [ptr_map.find, hne]
    have hwrap : (n + 1) % 2 ^ 64 < 2 ^ 64 := Nat.mod_lt _ (by norm_num)
    have hshift : (List.range rest.length).map (fun i => ((n + 1) % 2 ^ 64 + i) % 2 ^ 64)
        = (List.range rest.length).map (fun i => (n + (i + 1)) % 2 ^ 64) := by
      apply List.map_congr_left
      intro i _
      rw [Nat.mod_add_mod]
      congr 1
      omega
    have hhead : (n + 0) % 2 ^ 64 = n := by
      rw [Nat.add_zero]
      exact Nat.mod_eq_of_lt hn
    simp only [orderingArbitraryLoop]
    rw [ih (acc.insert k n) ((n + 1) % 2 ^ 64) hwrap hnodup.2 hrest, hins, hshift]
    simp only [List.length_cons, List.range_succ_eq_map, List.map_cons, List.map_map,
      List.zip_cons_cons, hhead, List.append_assoc, List.singleton_append]
    rfl

theorem localCoordinatesLoop_missing [DecidableEq Key] (ops : ValueOps Value R)
    (ordering : Ordering Key) (l₁ : List (Key × Value)) :
    ∀ (l₂ : List (Key × Value)) (result : VectorValues R) (k : Key),
      (localCoordinatesLoop ops ordering l₁ l₂ result).result
          = .error (.orderingKeyMissing k) →
      k ∈ l₁.map Prod.fst ∧ ordering.tryAt k = none := by
  induction l₁ with
  | nil =>
    intro l₂ result k h
    simp [localCoordinatesLoop] at h
  | cons e₁ rest₁ ih =>
    intro l₂ result k h
    cases l₂ with
    | nil => simp [localCoordinatesLoop] at h
    | cons e₂ rest₂ =>
      obtain ⟨k₁, v₁⟩ := e₁
      obtain ⟨k₂, v₂⟩ := e₂
      by_cases hk : k₁ = k₂
      · subst hk
        cases hsub : ordering.tryAt k₁ with
        | none =>
          simp only [localCoordinatesLoop, ne_eq, not_true_eq_false, if_false,
            Ordering.subscript, hsub, Except.error.injEq, Error.orderingKeyMissing.injEq] at h
          subst h
          exact ⟨by simp, hsub⟩
        | some index =>
          by_cases ht : ops.typeid v₁ = ops.typeid v₂
          · simp only [localCoordinatesLoop, ne_eq, not_true_eq_false, if_false,
              Ordering.subscript, hsub, ValueOps.localCoordinates_, ht, if_true] at h
            obtain ⟨hmem, hnone⟩ := ih rest₂ _ k h
            exact ⟨by simp only [List.map_cons, List.mem_cons]; exact Or.inr hmem, hnone⟩
          · simp [localCoordinatesLoop, Ordering.subscript, hsub,
              ValueOps.localCoordinates_, ht] at h
      · simp [localCoordinatesLoop, hk] at h

/-- C22 (as amended). For a store and a start index, `orderingArbitrary(firstVar)` has an
index exactly for the keys of the store and gives the key at position `i` of the
iteration order the index `(firstVar + i) mod 2^64`, the increment of the fixed-width
`Index` wrapping around.  When `firstVar + size` does not exceed `2^64` these are the
consecutive indices `firstVar`, `firstVar + 1`, up to `firstVar + size - 1`; different
keys have different indices (the size of a store not exceeding `2^64`).  Hence `retract`
with this ordering succeeds for every delta, and `localCoordinates` with this ordering
never fails for want of an index. -/
theorem orderingArbitrary_numbers_keys [LinearOrder Key] [Zero R] (ops : ValueOps Value R)
    (S : DynamicValues Key Value) (firstVar : Index) (hS : S.Ordered)
    (hfirst : firstVar < 2 ^ 64) :
    (S.orderingArbitrary firstVar).order_
        = S.keys.zip ((List.range S.size).map fun i => (firstVar + i) % 2 ^ 64) ∧
      (∀ k, ((S.orderingArbitrary firstVar).tryAt k).isSome = true ↔ k ∈ S.keys) ∧
      (∀ i k, S.keys[i]? = some k →
        (S.orderingArbitrary firstVar).tryAt k = some ((firstVar + i) % 2 ^ 64)) ∧
      (firstVar + S.size ≤ 2 ^ 64 → ∀ i k, S.keys[i]? = some k →
        (S.orderingArbitrary firstVar).tryAt k = some (firstVar + i)) ∧
      (S.size ≤ 2 ^ 64 →
        ∀ k₁ k₂ i, (S.orderingArbitrary firstVar).tryAt k₁ = some i →
          (S.orderingArbitrary firstVar).tryAt k₂ = some i → k₁ = k₂) ∧
      (∀ delta : VectorValues R,
        ∃ out, S.retract ops delta (S.orderingArbitrary firstVar) = .ok out) ∧
      ∀ (cp : DynamicValues Key Value) (k : Key),
        S.localCoordinates ops cp (S.orderingArbitrary firstVar)
          ≠ .error (.orderingKeyMissing k) := by
  have hnodup : (S.values_.map Prod.fst).Nodup := List.Pairwise.imp (fun h => ne_of_lt h) hS
  have hlen : S.size = S.keys.length := by simp [size, keys]
  have horder : (S.orderingArbitrary firstVar).order_
      = S.keys.zip ((List.range S.size).map fun i => (firstVar + i) % 2 ^ 64) := by
    unfold orderingArbitrary
    rw [orderingArbitraryLoop_spec S.values_ ⟨[]⟩ firstVar hfirst hnodup (fun _ _ => rfl)]
    simp [keys, size]
  have hcover : ∀ k, ((S.orderingArbitrary firstVar).tryAt k).isSome = true ↔ k ∈ S.keys := by
    intro k
    unfold Ordering.tryAt
    rw [ptr_map.find_isSome_iff, horder, List.map_fst_zip _ _ (by simp [hlen])]
  have hposlt : ∀ i k, S.keys[i]? = some k → i < S.size := by
    intro i k hk
    by_contra hge
    rw [List.getElem?_eq_none (by rw [← hlen]; omega)] at hk
    cases hk
  have hindex : ∀ i k, S.keys[i]? = some k →
      (S.orderingArbitrary firstVar).tryAt k = some ((firstVar + i) % 2 ^ 64) := by
    intro i k hk
    unfold Ordering.tryAt
    rw [horder]
    apply find_zip S.keys _ i k _ hnodup hk
    simp [List.getElem?_map, List.getElem?_range (hposlt i k hk)]
  have hposition : ∀ k i, (S.orderingArbitrary firstVar).tryAt k = some i →
      ∃ p, p < S.size ∧ S.keys[p]? = some k ∧ i = (firstVar + p) % 2 ^ 64 := by
    intro k i hk
    have hmem : k ∈ S.keys := (hcover k).1 (by simp [hk])
    obtain ⟨p, hp⟩ := List.getElem?_of_mem hmem
    refine ⟨p, hposlt p k hp, hp, ?_⟩
    rw [hindex p k hp] at hk
    exact (Option.some.inj hk).symm
  refine ⟨horder, hcover, hindex, ?_, ?_, ?_, ?_⟩
  · intro hfit i k hk
    rw [hindex i k hk]
    have hlt := hposlt i k hk
    rw [Nat.mod_eq_of_lt (lt_of_lt_of_le (Nat.add_lt_add_left hlt firstVar) hfit)]
  · intro hsize k₁ k₂ i h₁ h₂
    obtain ⟨p₁, hlt₁, hp₁, hi₁⟩ := hposition k₁ i h₁
    obtain ⟨p₂, hlt₂, hp₂, hi₂⟩ := hposition k₂ i h₂
    have hmod : (firstVar + p₁) % 2 ^ 64 = (firstVar + p₂) % 2 ^ 64 := hi₁.symm.trans hi₂
    have hcancel : p₁ ≡ p₂ [MOD 2 ^ 64] := Nat.ModEq.add_left_cancel' firstVar hmod
    have hp : p₁ = p₂ :=
      Nat.ModEq.eq_of_lt_of_lt hcancel (lt_of_lt_of_le hlt₁ hsize)
        (lt_of_lt_of_le hlt₂ hsize)
    subst hp
    rw [hp₁] at hp₂
    exact Option.some.inj hp₂
  · intro delta
    obtain ⟨out, hout, _⟩ :=
      retract_ok ops S delta (S.orderingArbitrary firstVar) hS
        (fun k hk => (hcover k).2 hk)
    exact ⟨out, hout⟩
  · intro cp k c
    unfold localCoordinates at c
    cases hres : (S.localCoordinatesInto ops cp (S.orderingArbitrary firstVar)
        (VectorValues.ofDims (S.dims ops (S.orderingArbitrary firstVar)))).result with
    | ok u =>
      simp only [hres] at c
      cases c
    | error err =>
      simp only [hres] at c
      have herr : err = .orderingKeyMissing k := Except.error.inj c
      subst herr
      unfold localCoordinatesInto at hres
      by_cases hsize : S.size = cp.size
      · simp only [hsize, ne_eq, not_true_eq_false, if_false] at hres
        obtain ⟨hmem, hnone⟩ :=
          localCoordinatesLoop_missing ops (S.orderingArbitrary firstVar) S.values_
            cp.values_ _ k hres
        have hsome := (hcover k).2 hmem
        rw [hnone] at hsome
        cases hsome
      · simp [hsize] at hres

theorem orderingArbitrary_numbers_keys_witness :
    (exStore.orderingArbitrary 4).tryAt 3 = some ((4 + 1) % 2 ^ 64) ∧
      (exStore.orderingArbitrary 4).tryAt 3 = some (4 + 1) :=
  have h := orderingArbitrary_numbers_keys exOps exStore 4 (by decide) (by decide)
  ⟨h.2.2.1 1 3 (by decide), h.2.2.2.1 (by decide) 1 3 (by decide)⟩

/-- C22, as stated, fails: from the start index `2^64 - 1`, the largest value of the
fixed-width `Index`, the second key of `exStore` (key 3) is given the index 0, not the
next consecutive index. -/
theorem orderingArbitrary_consecutive_counterexample :
    18446744073709551615 < 2 ^ 64 ∧ exStore.keys[1]? = some 3 ∧
      (exStore.orderingArbitrary 18446744073709551615).tryAt 1
        = some 18446744073709551615 ∧
      (exStore.orderingArbitrary 18446744073709551615).tryAt 3 = some 0 ∧
      (exStore.orderingArbitrary 18446744073709551615).tryAt 3
        ≠ some (18446744073709551615 + 1) := by
  refine ⟨by decide, by decide, by decide, by decide, by decide⟩

end DynamicValues

/-! ## Assignment -/

namespace DynamicValues

variable {Key Value R : Type}

theorem insertValues_into_empty [LinearOrder Key] [Zero R] (ops : ValueOps Value R)
    (V : DynamicValues Key Value) (hV : V.Ordered)
    (hclone : ∀ k v, ptr_map.find V.values_ k = some v →
      ops.typeid (ops.clone_ v) = ops.typeid v ∧ ops.equals_ (ops.clone_ v) v 0 = true) :
    (insertValues ops empty V).result = .ok () ∧
      (insertValues ops empty V).state.keys = V.keys ∧
      (∀ k v, ptr_map.find V.values_ k = some v →
        ptr_map.find (insertValues ops empty V).state.values_ k = some (ops.clone_ v)) ∧
      (insertValues ops empty V).state.equals ops V 0 = .ok true := by
  have hnodup : (V.values_.map Prod.fst).Nodup := List.Pairwise.imp (fun h => ne_of_lt h) hV
  obtain ⟨hok, hord, _, hval⟩ := insertLoop_spec ops V.values_ empty hnodup (fun _ _ => rfl)
  have hsorted : (insertLoop ops V.values_ (empty : DynamicValues Key Value)).state.Ordered :=
    hord (by simp [Ordered, empty])
  have hkeys : (insertValues ops empty V).state.keys = V.keys :=
    ptr_map.keys_eq_of_mem_iff _ _ hsorted hV (mem_keys_insertLoop ops V.values_ hnodup)
  have hfind : ∀ k v, ptr_map.find V.values_ k = some v →
      ptr_map.find (insertValues ops empty V).state.values_ k = some (ops.clone_ v) := by
    intro k v hv
    simp only [insertValues]
    rw [hval k]
    simp [empty, ptr_map.find, hv]
  refine ⟨hok, hkeys, hfind, ?_⟩
  have hcopy : (insertValues ops empty V).state.keys.Nodup := by
    rw [hkeys]
    exact hnodup
  rw [(equals_spec ops (insertValues ops empty V).state V 0 hcopy).2]
  refine ⟨hkeys, ?_⟩
  intro k a b ha hb
  have hab : a = ops.clone_ b := by
    rw [hfind k b hb] at ha
    exact (Option.some.inj ha).symm
  rw [hab]
  exact hclone k b hb

/-- Assignment from another object: whatever the receiver held, the assignment succeeds
and the receiver then has exactly the keys of the assigned store, holds under each key
the clone of its value, and `equals` it at tolerance 0 (a clone having the runtime type
of its original and being equal to it). -/
theorem operatorAssign_other_holds_clones [LinearOrder Key] [Zero R]
    (ops : ValueOps Value R) (A V : DynamicValues Key Value) (hV : V.Ordered)
    (hclone : ∀ k v, ptr_map.find V.values_ k = some v →
      ops.typeid (ops.clone_ v) = ops.typeid v ∧ ops.equals_ (ops.clone_ v) v 0 = true) :
    (A.operatorAssign ops (.other V)).result = .ok () ∧
      (A.operatorAssign ops (.other V)).state.keys = V.keys ∧
      (∀ k v, ptr_map.find V.values_ k = some v →
        ptr_map.find (A.operatorAssign ops (.other V)).state.values_ k
          = some (ops.clone_ v)) ∧
      (A.operatorAssign ops (.other V)).state.equals ops V 0 = .ok true :=
  insertValues_into_empty ops V hV hclone

theorem operatorAssign_other_holds_clones_witness :
    (exStore.operatorAssign exOps (.other exPairA)).result = .ok () ∧
      (exStore.operatorAssign exOps (.other exPairA)).state.keys = exPairA.keys ∧
      (exStore.operatorAssign exOps (.other exPairA)).state.equals exOps exPairA (0 : Int)
        = .ok true :=
  have h := operatorAssign_other_holds_clones exOps exStore exPairA (by decide)
    (fun k v hv => by
      simp only [exPairA, ptr_map.find] at hv
      split_ifs at hv with h₁ h₂
      · obtain rfl := Option.some.inj hv
        exact ⟨rfl, by decide⟩
      · obtain rfl := Option.some.inj hv
        exact ⟨rfl, by decide⟩)
  ⟨h.1, h.2.1, h.2.2.2⟩


/-- C24, at the failing input.  When a store is assigned to itself, `clear()` empties the
object that `insert` then reads: the assignment succeeds and leaves the store empty,
whatever it held.  For `exStore`, which holds keys 1 and 3, the store after `S = S` has
no key and does not `equals` the store it was. -/
theorem operatorAssign_self_empties [LinearOrder Key] (ops : ValueOps Value R)
    (S : DynamicValues Key Value) :
    (S.operatorAssign ops .self).result = .ok () ∧
      (S.operatorAssign ops .self).state = empty ∧
      exStore.keys = [1, 3] ∧
      (exStore.operatorAssign exOps .self).state.keys = [] ∧
      (exStore.operatorAssign exOps .self).state.equals exOps exStore (0 : Int)
        = .ok false := by
  refine ⟨rfl, rfl, by decide, by decide, rfl⟩

end DynamicValues

/-! ## Monotone descent of the optimizer -/

namespace LevenbergMarquardtOptimizer

variable {Key Value R Base : Type}

theorem dampingLoop_accepted [LinearOrder Key] (ops : ValueOps Value R)
    (graph : NonlinearFactorGraph Key Value)
    (solve : DynamicValues Key Value → ℚ → Option (VectorValues R))
    (ordering : Ordering Key) (factor upperBound : ℚ) (values : DynamicValues Key Value)
    (currentError : ℚ) (fuel : Nat) :
    ∀ (lambda : ℚ) (candidate : DynamicValues Key Value) (error kept : ℚ),
      dampingLoop ops graph solve ordering factor upperBound values currentError fuel lambda
          = some (.ok (.accepted candidate error kept)) →
      error < currentError ∧ error = graph.error candidate := by
  induction fuel with
  | zero =>
    intro lambda candidate error kept h
    simp [dampingLoop] at h
  | succ fuel ih =>
    intro lambda candidate error kept h
    unfold dampingLoop at h
    cases hsolve : solve values lambda with
    | none =>
      simp only [hsolve] at h
      split_ifs at h
      · simp at h
      · exact ih _ candidate error kept h
    | some delta =>
      simp only [hsolve] at h
      cases hretract : values.retract ops delta ordering with
      | error e => simp [hretract] at h
      | ok found =>
        simp only [hretract] at h
        split_ifs at h with hlt hup
        · simp only [Option.some.injEq, Except.ok.injEq, Trial.accepted.injEq] at h
          obtain ⟨hc, he, _⟩ := h
          subst hc he
          exact ⟨hlt, rfl⟩
        · simp at h
        · exact ih _ candidate error kept h

theorem dampingLoop_returns [LinearOrder Key] (ops : ValueOps Value R)
    (graph : NonlinearFactorGraph Key Value)
    (solve : DynamicValues Key Value → ℚ → Option (VectorValues R))
    (ordering : Ordering Key) (factor upperBound : ℚ) (values : DynamicValues Key Value)
    (currentError : ℚ) (n : Nat) :
    ∀ lambda : ℚ, upperBound < lambda * factor ^ (n + 1) →
      dampingLoop ops graph solve ordering factor upperBound values currentError (n + 1)
        lambda ≠ none := by
  induction n with
  | zero =>
    intro lambda hbound
    have hb : upperBound < lambda * factor := by simpa using hbound
    unfold dampingLoop
    cases hsolve : solve values lambda with
    | none => simp [hb]
    | some delta =>
      simp only []
      cases hretract : values.retract ops delta ordering with
      | error e => simp
      | ok found =>
        simp only []
        split_ifs <;> simp
  | succ n ih =>
    intro lambda hbound
    have hnext : upperBound < lambda * factor * factor ^ (n + 1) := by
      rw [pow_succ] at hbound
      rw [pow_succ]
      calc upperBound < lambda * (factor ^ (n + 1) * factor) := by
              rw [pow_succ] at *
              exact hbound
        _ = lambda * factor * (factor ^ n * factor) := by ring
    have hrec := ih (lambda * factor) hnext
    unfold dampingLoop
    cases hsolve : solve values lambda with
    | none =>
      simp only []
      split_ifs
      · simp
      · exact hrec
    | some delta =>
      simp only []
      cases hretract : values.retract ops delta ordering with
      | error e => simp
      | ok found =>
        simp only []
        split_ifs
        · simp
        · simp
        · exact hrec

theorem iterate_step [LinearOrder Key] (ops : ValueOps Value R)
    (solve : DynamicValues Key Value → ℚ → Option (VectorValues R))
    (criteria : StoppingCriteria) (fuel : Nat)
    (machine next : OptimizerMachine Key Value R Base)
    (h : iterate ops solve criteria fuel machine = some (.ok next)) :
    next.optimizer.graph_ = machine.optimizer.graph_ ∧
      ((next.optimizer.state_.values = machine.optimizer.state_.values ∧
          next.optimizer.state_.error = machine.optimizer.state_.error) ∨
        (next.optimizer.state_.error < machine.optimizer.state_.error ∧
          next.optimizer.state_.error
            = machine.optimizer.graph_.error next.optimizer.state_.values)) := by
  unfold iterate at h
  have hterminal : some (Except.ok machine)
      = (some (.ok next) : Option (Except (Error Key) (OptimizerMachine Key Value R Base))) →
      next.optimizer.graph_ = machine.optimizer.graph_ ∧
        ((next.optimizer.state_.values = machine.optimizer.state_.values ∧
            next.optimizer.state_.error = machine.optimizer.state_.error) ∨
          (next.optimizer.state_.error < machine.optimizer.state_.error ∧
            next.optimizer.state_.error
              = machine.optimizer.graph_.error next.optimizer.state_.values)) := by
    intro heq
    simp only [Option.some.injEq, Except.ok.injEq] at heq
    subst heq
    exact ⟨rfl, Or.inl ⟨rfl, rfl⟩⟩
  have hloop : (match dampingLoop ops machine.optimizer.graph_ solve
        (machine.optimizer.params_.ordering.getD ⟨[]⟩) machine.optimizer.params_.lambdaFactor
        machine.optimizer.params_.lambdaUpperBound machine.optimizer.state_.values
        machine.optimizer.state_.error fuel machine.optimizer.state_.lambda with
      | none => none
      | some (.error e) => some (.error e)
      | some (.ok (.failed lambda)) =>
        some (.ok
          { optimizer :=
              { machine.optimizer with
                state_ := { machine.optimizer.state_ with lambda := lambda } }
            status := .Failed })
      | some (.ok (.accepted candidate error lambda)) =>
        some (.ok
          { optimizer :=
              { machine.optimizer with
                state_ :=
                  { values := candidate
                    error := error
                    iterations := machine.optimizer.state_.iterations + 1
                    lambda := lambda } }
            status := stoppingStatus criteria machine.optimizer.state_.error error
              (machine.optimizer.state_.iterations + 1) }))
      = (some (.ok next) : Option (Except (Error Key) (OptimizerMachine Key Value R Base))) →
      next.optimizer.graph_ = machine.optimizer.graph_ ∧
        ((next.optimizer.state_.values = machine.optimizer.state_.values ∧
            next.optimizer.state_.error = machine.optimizer.state_.error) ∨
          (next.optimizer.state_.error < machine.optimizer.state_.error ∧
            next.optimizer.state_.error
              = machine.optimizer.graph_.error next.optimizer.state_.values)) := by
    intro heq
    cases hd : dampingLoop ops machine.optimizer.graph_ solve
        (machine.optimizer.params_.ordering.getD ⟨[]⟩) machine.optimizer.params_.lambdaFactor
        machine.optimizer.params_.lambdaUpperBound machine.optimizer.state_.values
        machine.optimizer.state_.error fuel machine.optimizer.state_.lambda with
    | none => simp [hd] at heq
    | some outcome =>
      cases outcome with
      | error e => simp [hd] at heq
      | ok trial =>
        cases trial with
        | failed lambda =>
          simp only [hd, Option.some.injEq, Except.ok.injEq] at heq
          subst heq
          exact ⟨rfl, Or.inl ⟨rfl, rfl⟩⟩
        | accepted candidate error lambda =>
          obtain ⟨hlt, herr⟩ := dampingLoop_accepted ops _ solve _ _ _ _ _ fuel _ candidate
            error lambda hd
          simp only [hd, Option.some.injEq, Except.ok.injEq] at heq
          subst heq
          exact ⟨rfl, Or.inr ⟨hlt, herr⟩⟩
  cases hs : machine.status <;> simp only [hs] at h
  · exact hloop h
  · exact hloop h
  · exact hterminal h
  · exact hterminal h
  · exact hterminal h

theorem iterate_error_le [LinearOrder Key] (ops : ValueOps Value R)
    (solve : DynamicValues Key Value → ℚ → Option (VectorValues R))
    (criteria : StoppingCriteria) (fuel : Nat)
    (machine next : OptimizerMachine Key Value R Base)
    (h : iterate ops solve criteria fuel machine = some (.ok next)) :
    next.optimizer.state_.error ≤ machine.optimizer.state_.error := by
  rcases (iterate_step ops solve criteria fuel machine next h).2 with ⟨_, he⟩ | ⟨hlt, _⟩
  · exact le_of_eq he
  · exact le_of_lt hlt

theorem run_error_le [LinearOrder Key] (ops : ValueOps Value R)
    (solve : DynamicValues Key Value → ℚ → Option (VectorValues R))
    (criteria : StoppingCriteria) (fuel : Nat) (machine : OptimizerMachine Key Value R Base)
    (j : Nat) :
    ∀ (i : Nat) (later : OptimizerMachine Key Value R Base), i ≤ j →
      run ops solve criteria fuel j machine = some (.ok later) →
      ∃ earlier, run ops solve criteria fuel i machine = some (.ok earlier) ∧
        later.optimizer.state_.error ≤ earlier.optimizer.state_.error := by
  induction j with
  | zero =>
    intro i later hi h
    have hi0 : i = 0 := Nat.le_zero.1 hi
    subst hi0
    exact ⟨later, h, le_refl _⟩
  | succ j ih =>
    intro i later hi h
    by_cases hij : i = j + 1
    · subst hij
      exact ⟨later, h, le_refl _⟩
    · have hle : i ≤ j := by omega
      cases hrun : run ops solve criteria fuel j machine with
      | none => simp [run, hrun] at h
      | some outcome =>
        cases outcome with
        | error e => simp [run, hrun] at h
        | ok reached =>
          simp only [run, hrun] at h
          obtain ⟨earlier, hearlier, hle'⟩ := ih i reached hle hrun
          exact ⟨earlier, hearlier,
            le_trans (iterate_error_le ops solve criteria fuel reached later h) hle'⟩

end LevenbergMarquardtOptimizer

namespace LevenbergMarquardtOptimizer

variable {Key Value R Base : Type}

theorem iterate_returns [LinearOrder Key] (ops : ValueOps Value R)
    (solve : DynamicValues Key Value → ℚ → Option (VectorValues R))
    (criteria : StoppingCriteria) (machine : OptimizerMachine Key Value R Base)
    (hfactor : 1 < machine.optimizer.params_.lambdaFactor)
    (hlambda : 0 < machine.optimizer.state_.lambda) :
    ∃ fuel, iterate ops solve criteria fuel machine ≠ none := by
  obtain ⟨n, hn⟩ := pow_unbounded_of_one_lt
    (machine.optimizer.params_.lambdaUpperBound / machine.optimizer.state_.lambda) hfactor
  have hgrow : machine.optimizer.params_.lambdaFactor ^ n
      ≤ machine.optimizer.params_.lambdaFactor ^ (n + 1) :=
    pow_le_pow_right₀ (le_of_lt hfactor) (Nat.le_succ n)
  have hbound : machine.optimizer.params_.lambdaUpperBound
      < machine.optimizer.state_.lambda * machine.optimizer.params_.lambdaFactor ^ (n + 1) := by
    have h := lt_of_lt_of_le hn hgrow
    rw [div_lt_iff₀ hlambda] at h
    linarith
  have hloop := dampingLoop_returns ops machine.optimizer.graph_ solve
    (machine.optimizer.params_.ordering.getD ⟨[]⟩) machine.optimizer.params_.lambdaFactor
    machine.optimizer.params_.lambdaUpperBound machine.optimizer.state_.values
    machine.optimizer.state_.error n machine.optimizer.state_.lambda hbound
  refine ⟨n + 1, ?_⟩
  unfold iterate
  cases hd : dampingLoop ops machine.optimizer.graph_ solve
      (machine.optimizer.params_.ordering.getD ⟨[]⟩) machine.optimizer.params_.lambdaFactor
      machine.optimizer.params_.lambdaUpperBound machine.optimizer.state_.values
      machine.optimizer.state_.error (n + 1) machine.optimizer.state_.lambda with
  | none => exact absurd hd hloop
  | some outcome =>
    cases hs : machine.status <;>
      rcases outcome with e | (⟨candidate, error, lambda⟩ | lambda) <;> simp [hd]

/-- C21. Optimizer monotonicity.  A call of `iterate()` that returns either keeps the
estimate and its error or commits a candidate whose error, as computed by the graph,
is strictly below the current error; so along every run of repeated calls, from any
initial state, the error at a later call is at most the error at an earlier call, and a
call that reaches `Converged` does so with an error at most that of the state it
started from.  With a factor above 1 and a positive damping the call does return. -/
theorem accepted_errors_never_increase [LinearOrder Key] (ops : ValueOps Value R)
    (solve : DynamicValues Key Value → ℚ → Option (VectorValues R))
    (criteria : StoppingCriteria) (fuel : Nat)
    (machine : OptimizerMachine Key Value R Base) :
    (∀ next, iterate ops solve criteria fuel machine = some (.ok next) →
        (next.optimizer.state_.values = machine.optimizer.state_.values ∧
            next.optimizer.state_.error = machine.optimizer.state_.error) ∨
          (next.optimizer.state_.error < machine.optimizer.state_.error ∧
            next.optimizer.state_.error
              = machine.optimizer.graph_.error next.optimizer.state_.values)) ∧
      (∀ i j earlier later, i ≤ j →
        run ops solve criteria fuel i machine = some (.ok earlier) →
        run ops solve criteria fuel j machine = some (.ok later) →
        later.optimizer.state_.error ≤ earlier.optimizer.state_.error) ∧
      (∀ next, iterate ops solve criteria fuel machine = some (.ok next) →
        next.status = .Converged →
        next.optimizer.state_.error ≤ machine.optimizer.state_.error) ∧
      (1 < machine.optimizer.params_.lambdaFactor → 0 < machine.optimizer.state_.lambda →
        ∃ enough, iterate ops solve criteria enough machine ≠ none) := by
  refine ⟨?_, ?_, ?_, ?_⟩
  · intro next h
    exact (iterate_step ops solve criteria fuel machine next h).2
  · intro i j earlier later hij hi hj
    obtain ⟨found, hfound, hle⟩ := run_error_le ops solve criteria fuel machine j i later hij hj
    rw [hi] at hfound
    have heq : earlier = found := Except.ok.inj (Option.some.inj hfound)
    rw [heq]
    exact hle
  · intro next h _
    exact iterate_error_le ops solve criteria fuel machine next h
  · intro hfactor hlambda
    exact iterate_returns ops solve criteria machine hfactor hlambda

theorem accepted_errors_never_increase_witness :
    iterate exOps exSolve exCriteria 3 exMachine = some (.ok exMachineNext) ∧
      exMachine.optimizer.state_.error = 25 ∧
      exMachineNext.optimizer.state_.error = 16 ∧
      ((exMachineNext.optimizer.state_.values = exMachine.optimizer.state_.values ∧
          exMachineNext.optimizer.state_.error = exMachine.optimizer.state_.error) ∨
        (exMachineNext.optimizer.state_.error < exMachine.optimizer.state_.error ∧
          exMachineNext.optimizer.state_.error
            = exMachine.optimizer.graph_.error exMachineNext.optimizer.state_.values)) :=
  have hstep : iterate exOps exSolve exCriteria 3 exMachine = some (.ok exMachineNext) :=
    rfl
  ⟨hstep, rfl, rfl,
    (accepted_errors_never_increase exOps exSolve exCriteria 3 exMachine).1 exMachineNext
      hstep⟩

end LevenbergMarquardtOptimizer

end gtsam
